import Mathlib

set_option maxHeartbeats 1600000

/-- Byte-offset span over the source text.
Modelled from the spec: `crate::Span` is not under src/; the spec describes it as a
half-open interval `{start, end}` with `extend(len)` growing `end` and `empty_at(pos)`
creating a zero-width span. The Rust field `end` is renamed `stop` (`end` is a Lean
keyword). -/
structure Span where
  start : Nat
  stop : Nat
deriving DecidableEq

/-- Constructor `Span::new(start, end)`. -/
def Span.new (s e : Nat) : Span := ⟨s, e⟩

/-- `Span::extend(len)` grows the end of the span. -/
def Span.extend (sp : Span) (len : Nat) : Span := ⟨sp.start, sp.stop + len⟩

/-- `Span::empty_at(pos)`: a zero-width span at `pos`. -/
def Span.empty_at (pos : Nat) : Span := ⟨pos, pos⟩

/-- Length of a span. -/
def Span.len (sp : Span) : Nat := sp.stop - sp.start

namespace lex

/-- Modelled from the spec: the lexer (src does not contain lex.rs) classifies raw
bytes into symbol tokens; these are the symbol identities the inline resolver
matches on. -/
inductive Symbol where
  | Asterisk | Caret | Quote1 | Quote2 | Tilde | Underscore | Lt | Gt
deriving DecidableEq

/-- Modelled from the spec: bracket-like delimiter identities, one per
"brace + punctuation" form plus the plain bracket. -/
inductive Delimiter where
  | Bracket | BraceAsterisk | BraceCaret | BraceEqual | BraceHyphen
  | BracePlus | BraceTilde | BraceUnderscore
deriving DecidableEq

/-- Modelled from the spec: "sequence" runs carrying their run length. -/
inductive Sequence where
  | Backtick | Dollar
deriving DecidableEq

/-- Modelled from the spec: token kinds consumed by the inline resolver: escape,
non-breaking space, symbols, delimiter open/close markers, sequence runs, and a
plain-text run kind (the resolver's default branch turns it into `Str`). -/
inductive Kind where
  | Escape
  | Nbsp
  | Sym (s : Symbol)
  | Open (d : Delimiter)
  | Close (d : Delimiter)
  | Seq (s : Sequence)
  | Text
deriving DecidableEq

/-- Modelled from the spec: a lexer token is a kind together with its byte length. -/
structure Token where
  kind : Kind
  len : Nat
deriving DecidableEq

end lex

namespace inline

/-- Atoms of the inline event stream (src/inline.rs `enum Atom`). -/
inductive Atom where
  | Softbreak | Hardbreak | Escape | Nbsp | OpenMarker | Ellipses | ImageMarker
  | EmDash | EnDash | Lt | Gt | Ampersand | Quote
deriving DecidableEq

/-- Leaf nodes of the inline event stream (src/inline.rs `enum Node`). -/
inductive Node where
  | Str | Url | ImageSource | LinkReference | FootnoteReference
  | Verbatim | RawFormat | InlineMath | DisplayMath
deriving DecidableEq

/-- Containers of the inline event stream (src/inline.rs `enum Container`). -/
inductive Container where
  | Span | Attributes | Subscript | Superscript | Insert | Delete
  | Emphasis | Strong | Mark | SingleQuoted | DoubleQuoted
deriving DecidableEq

/-- Whether an `Enter` event was matched by an exit (src/inline.rs `enum OpenerState`). -/
inductive OpenerState where
  | Unclosed | Closed
deriving DecidableEq

/-- Event kinds of the inline stream (src/inline.rs `enum EventKind`). -/
inductive EventKind where
  | Enter (c : Container) (st : OpenerState)
  | Exit (c : Container)
  | Atom (a : Atom)
  | Node (n : Node)
deriving DecidableEq

/-- A span-tagged inline event (src/inline.rs `struct Event`). -/
structure Event where
  kind : EventKind
  span : Span
deriving DecidableEq

/-- Delimiter direction (src/inline.rs `enum Dir`). -/
inductive Dir where
  | Open | Close | Both
deriving DecidableEq

/-- State of the inline resolver (src/inline.rs `struct Parser`).  The `VecDeque`
of events is a list with its front at the head; the opener `Vec` is a list in push
order (pushes append at the tail, as in the source).  The `Peekable<Lexer>` is the
list of tokens not yet consumed. -/
structure Parser where
  openers : List (Container × Nat)
  events : List Event
  span : Span
  tokens : List lex.Token
deriving DecidableEq

/-- `Parser::eat`: take the next token and extend the running span by its length. -/
def eat (p : Parser) : Option (lex.Token × Parser) :=
  match p.tokens with
  | [] => none
  | t :: ts => some (t, { p with span := p.span.extend t.len, tokens := ts })

/-- `Parser::peek`: one token of lookahead. -/
def peek (p : Parser) : Option lex.Token := p.tokens.head?

/-- `Parser::reset_span`: shrink the running span to a zero-width span at its end. -/
def reset_span (p : Parser) : Parser :=
  { p with span := Span.empty_at p.span.stop }

/-- `Parser::node`: an event of the given leaf kind covering the running span. -/
def node (kind : Node) (p : Parser) : Event :=
  ⟨EventKind.Node kind, p.span⟩

/-- `Parser::parse_atom`: single tokens that map directly to one `Atom` event. -/
def parse_atom (first : lex.Token) (p : Parser) : Option Event :=
  match first.kind with
  | .Escape => some ⟨.Atom .Escape, p.span⟩
  | .Nbsp => some ⟨.Atom .Nbsp, p.span⟩
  | .Sym .Lt => some ⟨.Atom .Lt, p.span⟩
  | .Sym .Gt => some ⟨.Atom .Gt, p.span⟩
  | .Sym .Quote2 => some ⟨.Atom .Quote, p.span⟩
  | _ => none

/-- The raw scan loop inside `Parser::parse_verbatim`: eat tokens (extending the
parser's running span `selfSpan`) until a backtick run of exactly `openerLen`
is found or the input ends, growing the interior span `sp` by every token that
is not the closing run. -/
def verbLoop (openerLen : Nat) :
    List lex.Token → Span → Span → (List lex.Token × Span × Span)
  | [], selfSpan, sp => ([], selfSpan, sp)
  | t :: ts, selfSpan, sp =>
    let selfSpan' := selfSpan.extend t.len
    if t.kind = lex.Kind.Seq lex.Sequence.Backtick ∧ t.len = openerLen then
      (ts, selfSpan', sp)
    else
      verbLoop openerLen ts selfSpan' (sp.extend t.len)

/-- `Parser::parse_verbatim`: backtick runs open verbatim; a dollar run of length
at most 2 followed by a backtick run opens inline (length 1) or display (length 2)
math; the interior is scanned raw until a backtick run of the opener's length. -/
def parse_verbatim (first : lex.Token) (p : Parser) : Option (Parser × Event) :=
  let opt : Option (Node × Nat × Parser) :=
    match first.kind with
    | .Seq .Dollar =>
      if first.len ≤ 2 then
        match peek p with
        | some tk =>
          match tk.kind with
          | .Seq .Backtick =>
            match eat p with
            | some (_, p') =>
              some (if first.len = 2 then Node.DisplayMath else Node.InlineMath,
                    tk.len, p')
            | none => none
          | _ => none
        | none => none
      else none
    | .Seq .Backtick => some (Node.Verbatim, first.len, p)
    | _ => none
  opt.map fun x =>
    let sp0 := Span.empty_at x.2.2.span.stop
    let r := verbLoop x.2.1 x.2.2.tokens x.2.2.span sp0
    ({ x.2.2 with tokens := r.1, span := r.2.1 }, ⟨EventKind.Node x.1, r.2.2⟩)

/-- The token-kind table at the head of `Parser::parse_container`: the intrinsic
container kind and direction of each symbol or delimiter token. -/
def containerOf : lex.Kind → Option (Container × Dir)
  | .Sym .Asterisk => some (.Strong, .Both)
  | .Sym .Underscore => some (.Emphasis, .Both)
  | .Sym .Caret => some (.Superscript, .Both)
  | .Sym .Tilde => some (.Subscript, .Both)
  | .Sym .Quote1 => some (.SingleQuoted, .Both)
  | .Sym .Quote2 => some (.DoubleQuoted, .Both)
  | .Open .Bracket => some (.Span, .Open)
  | .Close .Bracket => some (.Span, .Close)
  | .Open .BraceAsterisk => some (.Strong, .Open)
  | .Close .BraceAsterisk => some (.Strong, .Close)
  | .Open .BraceCaret => some (.Superscript, .Open)
  | .Close .BraceCaret => some (.Superscript, .Close)
  | .Open .BraceEqual => some (.Mark, .Open)
  | .Close .BraceEqual => some (.Mark, .Close)
  | .Open .BraceHyphen => some (.Delete, .Open)
  | .Close .BraceHyphen => some (.Delete, .Close)
  | .Open .BracePlus => some (.Insert, .Open)
  | .Close .BracePlus => some (.Insert, .Close)
  | .Open .BraceTilde => some (.Subscript, .Open)
  | .Close .BraceTilde => some (.Subscript, .Close)
  | .Open .BraceUnderscore => some (.Emphasis, .Open)
  | .Close .BraceUnderscore => some (.Emphasis, .Close)
  | _ => none

/-- `Iterator::rposition`: index of the last element satisfying the predicate. -/
def rposition {α : Type} (f : α → Bool) : List α → Option Nat
  | [] => none
  | a :: l =>
    match rposition f l with
    | some i => some (i + 1)
    | none => if f a then some 0 else none

/-- `Parser::parse_container`.  A `Close`/`Both` token whose container kind has an
opener on the stack closes the rightmost such opener: the buffered `Enter` event it
points at is flipped to `Closed`, the opener stack is drained from that position,
and an `Exit` is produced.  Any other matched token pushes a new opener and produces
an `Enter(_, Unclosed)`.  The `Except` error is the source's `panic!()` (reached when
the recorded index does not point at an `Enter` event) together with the implicit
index-out-of-bounds panics of `self.openers[o]` and `self.events[*e]`. -/
def parse_container (first : lex.Token) (p : Parser) :
    Option (Except Unit (Parser × Event)) :=
  (containerOf first.kind).map fun cd =>
    let contNew := cd.1
    let isClose : Bool := match cd.2 with | .Close => true | .Both => true | .Open => false
    match rposition (fun x => decide (x.1 = contNew)) p.openers with
    | some o =>
      if isClose then
        match p.openers.get? o with
        | some oe =>
          match p.events.get? oe.2 with
          | some ev =>
            match ev.kind with
            | .Enter c0 _ =>
              .ok ({ p with
                       events := p.events.set oe.2 ⟨.Enter c0 .Closed, ev.span⟩,
                       openers := p.openers.take o },
                   ⟨.Exit contNew, p.span⟩)
            | _ => .error ()
          | none => .error ()
        | none => .error ()
      else
        .ok ({ p with openers := p.openers ++ [(contNew, p.events.length)] },
             ⟨.Enter contNew .Unclosed, p.span⟩)
    | none =>
      .ok ({ p with openers := p.openers ++ [(contNew, p.events.length)] },
           ⟨.Enter contNew .Unclosed, p.span⟩)

/-- `Parser::parse_event`: reset the span, eat one token, and try verbatim, then
container, then atom parsing, falling back to a `Str` node over the token's span.
`ok none` is an exhausted lexer; `error` propagates `parse_container`'s panic. -/
def parse_event (p : Parser) : Except Unit (Option (Parser × Event)) :=
  match eat (reset_span p) with
  | none => .ok none
  | some (first, p1) =>
    match parse_verbatim first p1 with
    | some pe => .ok (some pe)
    | none =>
      match parse_container first p1 with
      | some (.ok pe) => .ok (some pe)
      | some (.error e) => .error e
      | none =>
        match parse_atom first p1 with
        | some ev => .ok (some (p1, ev))
        | none => .ok (some (p1, node .Str p1))

end inline

namespace inline

/-- Total byte length of a token list. -/
def sumLens (ts : List lex.Token) : Nat := (ts.map lex.Token.len).sum

/-- The closing-run test of the verbatim scan loop: a backtick run of exactly the
opener's length. -/
def closes (n : Nat) (t : lex.Token) : Bool :=
  decide (t.kind = lex.Kind.Seq lex.Sequence.Backtick ∧ t.len = n)

theorem sumLens_nil : sumLens [] = 0 := rfl

theorem sumLens_cons (t : lex.Token) (ts : List lex.Token) :
    sumLens (t :: ts) = t.len + sumLens ts := by
  simp [sumLens]

theorem sumLens_append (a b : List lex.Token) :
    sumLens (a ++ b) = sumLens a + sumLens b := by
  simp [sumLens]

theorem sumLens_takeWhile_dropWhile (f : lex.Token → Bool) (l : List lex.Token) :
    sumLens (l.takeWhile f) + sumLens (l.dropWhile f) = sumLens l := by
  rw [← sumLens_append, List.takeWhile_append_dropWhile]

theorem verbLoop_spec (n : Nat) : ∀ (ts : List lex.Token) (a b : Span),
    verbLoop n ts a b =
      ((ts.dropWhile (fun t => !closes n t)).tail,
       ⟨a.start, a.stop + sumLens (ts.takeWhile (fun t => !closes n t)) +
          (((ts.dropWhile (fun t => !closes n t)).head?.map lex.Token.len).getD 0)⟩,
       ⟨b.start, b.stop + sumLens (ts.takeWhile (fun t => !closes n t))⟩) := by
  intro ts
  induction ts with
  | nil => intro a b; simp [verbLoop, sumLens]
  | cons t ts ih =>
    intro a b
    by_cases h : t.kind = lex.Kind.Seq lex.Sequence.Backtick ∧ t.len = n
    · have hc : closes n t = true := by simp [closes, h.1, h.2]
      simp [verbLoop, if_pos h, hc, Span.extend, sumLens]
    · have hc : closes n t = false := by
        simp only [closes, decide_eq_false_iff_not]; exact h
      simp only [verbLoop, if_neg h, hc, List.takeWhile_cons, List.dropWhile_cons,
        Bool.not_false, if_true, ite_true, ih, Span.extend, sumLens_cons]
      simp [Nat.add_assoc]

theorem isSuffix_tail {α : Type} (l : List α) : l.tail.IsSuffix l := by
  cases l with
  | nil => simp
  | cons a l => exact ⟨[a], rfl⟩

theorem isSuffix_dropWhile {α : Type} (f : α → Bool) (l : List α) :
    (l.dropWhile f).IsSuffix l := by
  induction l with
  | nil => simp
  | cons a l ih =>
    rw [List.dropWhile_cons]
    split
    · exact ih.trans ⟨[a], rfl⟩
    · exact List.suffix_refl _

theorem parse_verbatim_backtick (n : Nat) (p : Parser) :
    parse_verbatim ⟨lex.Kind.Seq .Backtick, n⟩ p =
      some ({ p with
                tokens := (p.tokens.dropWhile (fun t => !closes n t)).tail,
                span := ⟨p.span.start,
                         p.span.stop + sumLens (p.tokens.takeWhile (fun t => !closes n t)) +
                           (((p.tokens.dropWhile (fun t => !closes n t)).head?.map
                               lex.Token.len).getD 0)⟩ },
            ⟨.Node .Verbatim,
             ⟨p.span.stop,
              p.span.stop + sumLens (p.tokens.takeWhile (fun t => !closes n t))⟩⟩) := by
  simp [parse_verbatim, verbLoop_spec, Span.empty_at]

theorem parse_verbatim_dollar_math (n m : Nat) (hn : n ≤ 2)
    (op : List (Container × Nat)) (evs : List Event) (sp : Span)
    (ts : List lex.Token) :
    parse_verbatim ⟨lex.Kind.Seq .Dollar, n⟩ ⟨op, evs, sp, ⟨lex.Kind.Seq .Backtick, m⟩ :: ts⟩ =
      some (⟨op, evs,
             ⟨sp.start, sp.stop + m + sumLens (ts.takeWhile (fun t => !closes m t)) +
               (((ts.dropWhile (fun t => !closes m t)).head?.map lex.Token.len).getD 0)⟩,
             (ts.dropWhile (fun t => !closes m t)).tail⟩,
            ⟨.Node (if n = 2 then Node.DisplayMath else Node.InlineMath),
             ⟨sp.stop + m,
              sp.stop + m + sumLens (ts.takeWhile (fun t => !closes m t))⟩⟩) := by
  simp [parse_verbatim, peek, eat, hn, verbLoop_spec, Span.empty_at, Span.extend]

theorem parse_verbatim_dollar_long (n : Nat) (p : Parser) :
    parse_verbatim ⟨lex.Kind.Seq .Dollar, n + 3⟩ p = none := by
  have h : ¬ (n + 3 ≤ 2) := by omega
  simp [parse_verbatim, h]

theorem parse_verbatim_dollar_nopeek (n : Nat) (p : Parser)
    (h : ∀ tk ∈ p.tokens.head?, tk.kind ≠ lex.Kind.Seq .Backtick) :
    parse_verbatim ⟨lex.Kind.Seq .Dollar, n⟩ p = none := by
  simp only [parse_verbatim, peek]
  cases htk : p.tokens.head? with
  | none => simp
  | some tk =>
    have := h tk (by simp [htk])
    cases hk : tk.kind <;> simp_all

end inline

namespace inline

theorem sumLens_head_tail (l : List lex.Token) :
    sumLens l = ((l.head?.map lex.Token.len).getD 0) + sumLens l.tail := by
  cases l <;> simp [sumLens_cons, sumLens]

theorem rposition_get {α : Type} (f : α → Bool) :
    ∀ (l : List α) (i : Nat), rposition f l = some i →
      ∃ a, l[i]? = some a ∧ f a = true := by
  intro l
  induction l with
  | nil => intro i h; simp [rposition] at h
  | cons a l ih =>
    intro i h
    unfold rposition at h
    cases hr : rposition f l with
    | some j =>
      rw [hr] at h
      injection h with h2
      subst h2
      obtain ⟨b, hb, hf⟩ := ih j hr
      exact ⟨b, by simpa using hb, hf⟩
    | none =>
      rw [hr] at h
      by_cases hf : f a
      · simp [hf] at h
        subst h
        exact ⟨a, by simp, hf⟩
      · simp [hf] at h

theorem parse_atom_step (first : lex.Token) (p : Parser) (ev : Event)
    (h : parse_atom first p = some ev) :
    ev.span = p.span ∧ ∃ a, ev.kind = .Atom a := by
  obtain ⟨fk, fl⟩ := first
  cases fk with
  | Sym s => cases s <;> simp [parse_atom] at h <;> exact ⟨by rw [← h], _, by rw [← h]⟩
  | Escape => simp [parse_atom] at h; exact ⟨by rw [← h], _, by rw [← h]⟩
  | Nbsp => simp [parse_atom] at h; exact ⟨by rw [← h], _, by rw [← h]⟩
  | _ => simp [parse_atom] at h

theorem parse_verbatim_step (first : lex.Token) (p q : Parser) (ev : Event)
    (h : parse_verbatim first p = some (q, ev)) :
    q.openers = p.openers ∧ q.events = p.events ∧ q.span.start = p.span.start ∧
    q.tokens.IsSuffix p.tokens ∧
    q.span.stop + sumLens q.tokens = p.span.stop + sumLens p.tokens ∧
    (p.span.stop ≤ ev.span.start ∧ ev.span.start ≤ ev.span.stop ∧
      ev.span.stop ≤ q.span.stop) ∧
    (∃ k, ev.kind = .Node k) ∧
    (first.kind = lex.Kind.Seq .Backtick ∨
      ∃ bt ∈ p.tokens, bt.kind = lex.Kind.Seq .Backtick) := by
  obtain ⟨po, pev, psp, pts⟩ := p
  obtain ⟨fk, fl⟩ := first
  cases fk with
  | Seq s =>
    cases s with
    | Backtick =>
      rw [parse_verbatim_backtick] at h
      obtain ⟨hq, hev⟩ := Prod.mk.injEq .. ▸ (Option.some.injEq .. ▸ h)
      subst hq; subst hev
      have hsd := sumLens_takeWhile_dropWhile (fun t => !closes fl t) pts
      have hht := sumLens_head_tail (pts.dropWhile (fun t => !closes fl t))
      refine ⟨rfl, rfl, rfl, ?_, ?_, ?_, ⟨_, rfl⟩, Or.inl rfl⟩
      · exact (isSuffix_tail _).trans (isSuffix_dropWhile _ _)
      · simp only []
        omega
      · simp only []
        omega
    | Dollar =>
      by_cases hle : fl ≤ 2
      · cases hts : pts with
        | nil => rw [hts] at h; simp [parse_verbatim, peek, hle] at h
        | cons tk ts =>
          obtain ⟨tkk, tkl⟩ := tk
          cases tkk with
          | Seq s2 =>
            cases s2 with
            | Backtick =>
              rw [hts] at h
              rw [parse_verbatim_dollar_math fl tkl hle] at h
              obtain ⟨hq, hev⟩ := Prod.mk.injEq .. ▸ (Option.some.injEq .. ▸ h)
              subst hq; subst hev
              have hsd := sumLens_takeWhile_dropWhile (fun t => !closes tkl t) ts
              have hht := sumLens_head_tail (ts.dropWhile (fun t => !closes tkl t))
              refine ⟨rfl, rfl, rfl, ?_, ?_, ?_, ⟨_, rfl⟩, ?_⟩
              · exact ((isSuffix_tail _).trans (isSuffix_dropWhile _ _)).trans
                  ⟨[⟨lex.Kind.Seq .Backtick, tkl⟩], rfl⟩
              · simp only [sumLens_cons]
                omega
              · simp only []
                omega
              · exact Or.inr ⟨⟨lex.Kind.Seq .Backtick, tkl⟩, by simp [hts], rfl⟩
            | Dollar =>
              rw [hts] at h
              rw [parse_verbatim_dollar_nopeek fl _ (by simp)] at h
              cases h
          | _ =>
            rw [hts] at h
            rw [parse_verbatim_dollar_nopeek fl _ (by simp)] at h
            cases h
      · obtain ⟨n3, hn3⟩ : ∃ n3, fl = n3 + 3 := ⟨fl - 3, by omega⟩
        rw [hn3, parse_verbatim_dollar_long] at h
        cases h
  | _ => simp [parse_verbatim] at h

end inline

namespace inline

theorem parse_container_eq_nomatch (first : lex.Token) (p : Parser)
    (hco : containerOf first.kind = none) :
    parse_container first p = none := by
  simp [parse_container, hco]

theorem parse_container_eq_open (first : lex.Token) (p : Parser) (c : Container)
    (d : Dir) (hco : containerOf first.kind = some (c, d))
    (hrp : rposition (fun x => decide (x.1 = c)) p.openers = none) :
    parse_container first p =
      some (.ok ({ p with openers := p.openers ++ [(c, p.events.length)] },
                 ⟨.Enter c .Unclosed, p.span⟩)) := by
  cases d <;> simp [parse_container, hco, hrp]

theorem parse_container_eq_open2 (first : lex.Token) (p : Parser) (c : Container)
    (o : Nat) (hco : containerOf first.kind = some (c, Dir.Open))
    (hrp : rposition (fun x => decide (x.1 = c)) p.openers = some o) :
    parse_container first p =
      some (.ok ({ p with openers := p.openers ++ [(c, p.events.length)] },
                 ⟨.Enter c .Unclosed, p.span⟩)) := by
  simp [parse_container, hco, hrp]

theorem parse_container_eq_close (first : lex.Token) (p : Parser) (c : Container)
    (d : Dir) (o : Nat) (a : Container × Nat) (ev0 : Event) (c0 : Container)
    (st0 : OpenerState) (hco : containerOf first.kind = some (c, d))
    (hd : d = Dir.Close ∨ d = Dir.Both)
    (hrp : rposition (fun x => decide (x.1 = c)) p.openers = some o)
    (ho : p.openers[o]? = some a)
    (hev : p.events[a.2]? = some ev0)
    (hk : ev0.kind = .Enter c0 st0) :
    parse_container first p =
      some (.ok ({ p with events := p.events.set a.2 ⟨.Enter c0 .Closed, ev0.span⟩,
                          openers := p.openers.take o },
                 ⟨.Exit c, p.span⟩)) := by
  rcases hd with rfl | rfl <;> simp [parse_container, hco, hrp, ho, hev, hk]

theorem parse_container_eq_err_oob (first : lex.Token) (p : Parser) (c : Container)
    (d : Dir) (o : Nat) (a : Container × Nat)
    (hco : containerOf first.kind = some (c, d))
    (hd : d = Dir.Close ∨ d = Dir.Both)
    (hrp : rposition (fun x => decide (x.1 = c)) p.openers = some o)
    (ho : p.openers[o]? = some a)
    (hev : p.events[a.2]? = none) :
    parse_container first p = some (.error ()) := by
  rcases hd with rfl | rfl <;> simp [parse_container, hco, hrp, ho, hev]

theorem parse_container_eq_err_kind (first : lex.Token) (p : Parser) (c : Container)
    (d : Dir) (o : Nat) (a : Container × Nat) (ev0 : Event)
    (hco : containerOf first.kind = some (c, d))
    (hd : d = Dir.Close ∨ d = Dir.Both)
    (hrp : rposition (fun x => decide (x.1 = c)) p.openers = some o)
    (ho : p.openers[o]? = some a)
    (hev : p.events[a.2]? = some ev0)
    (hk : ∀ c0 st0, ev0.kind ≠ .Enter c0 st0) :
    parse_container first p = some (.error ()) := by
  rcases hd with rfl | rfl <;>
    (cases hke : ev0.kind with
     | Enter c0 st0 => exact absurd hke (hk c0 st0)
     | _ => simp [parse_container, hco, hrp, ho, hev, hke])

theorem parse_container_cases (first : lex.Token) (p : Parser)
    (r : Except Unit (Parser × Event)) (h : parse_container first p = some r) :
    ∃ c d, containerOf first.kind = some (c, d) ∧
    ( (r = .ok ({ p with openers := p.openers ++ [(c, p.events.length)] },
                ⟨.Enter c .Unclosed, p.span⟩))
    ∨ (∃ o i c0 st0 sp0,
         rposition (fun x => decide (x.1 = c)) p.openers = some o ∧
         p.openers[o]? = some (c, i) ∧
         (d = Dir.Close ∨ d = Dir.Both) ∧
         p.events[i]? = some ⟨.Enter c0 st0, sp0⟩ ∧
         r = .ok ({ p with events := p.events.set i ⟨.Enter c0 .Closed, sp0⟩,
                           openers := p.openers.take o },
                  ⟨.Exit c, p.span⟩))
    ∨ r = .error () ) := by
  cases hco : containerOf first.kind with
  | none => rw [parse_container_eq_nomatch first p hco] at h; cases h
  | some cd =>
    obtain ⟨c, d⟩ := cd
    refine ⟨c, d, rfl, ?_⟩
    cases hrp : rposition (fun x => decide (x.1 = c)) p.openers with
    | none =>
      rw [parse_container_eq_open first p c d hco hrp] at h
      injection h with h
      exact Or.inl h.symm
    | some o =>
      obtain ⟨a, ha, hfa⟩ := rposition_get _ _ _ hrp
      have hac : a.1 = c := by simpa using hfa
      cases d with
      | Open =>
        rw [parse_container_eq_open2 first p c o hco hrp] at h
        injection h with h
        exact Or.inl h.symm
      | Close =>
        cases hev : p.events[a.2]? with
        | none =>
          rw [parse_container_eq_err_oob first p c _ o a hco (Or.inl rfl) hrp ha hev] at h
          injection h with h
          exact Or.inr (Or.inr h.symm)
        | some ev0 =>
          cases hk : ev0.kind with
          | Enter c0 st0 =>
            rw [parse_container_eq_close first p c _ o a ev0 c0 st0 hco (Or.inl rfl)
              hrp ha hev hk] at h
            injection h with h
            refine Or.inr (Or.inl ⟨o, a.2, c0, st0, ev0.span, rfl, ?_, Or.inl rfl, ?_, h.symm⟩)
            · rw [ha, ← hac]
            · rw [hev, ← hk]
          | _ =>
            rw [parse_container_eq_err_kind first p c _ o a ev0 hco (Or.inl rfl)
              hrp ha hev (by intro c0 st0 hbad; rw [hk] at hbad; cases hbad)] at h
            injection h with h
            exact Or.inr (Or.inr h.symm)
      | Both =>
        cases hev : p.events[a.2]? with
        | none =>
          rw [parse_container_eq_err_oob first p c _ o a hco (Or.inr rfl) hrp ha hev] at h
          injection h with h
          exact Or.inr (Or.inr h.symm)
        | some ev0 =>
          cases hk : ev0.kind with
          | Enter c0 st0 =>
            rw [parse_container_eq_close first p c _ o a ev0 c0 st0 hco (Or.inr rfl)
              hrp ha hev hk] at h
            injection h with h
            refine Or.inr (Or.inl ⟨o, a.2, c0, st0, ev0.span, rfl, ?_, Or.inr rfl, ?_, h.symm⟩)
            · rw [ha, ← hac]
            · rw [hev, ← hk]
          | _ =>
            rw [parse_container_eq_err_kind first p c _ o a ev0 hco (Or.inr rfl)
              hrp ha hev (by intro c0 st0 hbad; rw [hk] at hbad; cases hbad)] at h
            injection h with h
            exact Or.inr (Or.inr h.symm)

end inline

namespace inline

theorem parse_event_cons (po : List (Container × Nat)) (pev : List Event) (psp : Span)
    (t : lex.Token) (ts : List lex.Token) :
    parse_event ⟨po, pev, psp, t :: ts⟩ =
      (match parse_verbatim t ⟨po, pev, ⟨psp.stop, psp.stop + t.len⟩, ts⟩ with
       | some pe => .ok (some pe)
       | none =>
         match parse_container t ⟨po, pev, ⟨psp.stop, psp.stop + t.len⟩, ts⟩ with
         | some (.ok pe) => Except.ok (some pe)
         | some (.error e) => .error e
         | none =>
           match parse_atom t ⟨po, pev, ⟨psp.stop, psp.stop + t.len⟩, ts⟩ with
           | some ev => .ok (some (⟨po, pev, ⟨psp.stop, psp.stop + t.len⟩, ts⟩, ev))
           | none => .ok (some (⟨po, pev, ⟨psp.stop, psp.stop + t.len⟩, ts⟩,
               node .Str ⟨po, pev, ⟨psp.stop, psp.stop + t.len⟩, ts⟩))) := rfl

theorem parse_event_nil (po : List (Container × Nat)) (pev : List Event) (psp : Span) :
    parse_event ⟨po, pev, psp, []⟩ = .ok none := rfl

theorem parse_event_none_tokens (p : Parser) (h : parse_event p = .ok none) :
    p.tokens = [] := by
  obtain ⟨po, pev, psp, pts⟩ := p
  cases pts with
  | nil => rfl
  | cons t ts =>
    rw [parse_event_cons] at h
    cases hv : parse_verbatim t ⟨po, pev, ⟨psp.stop, psp.stop + t.len⟩, ts⟩ with
    | some pe =>
      rw [hv] at h
      have h2 : (Except.ok (some pe) : Except Unit (Option (Parser × Event))) = .ok none := h
      simp at h2
    | none =>
      rw [hv] at h
      cases hc : parse_container t ⟨po, pev, ⟨psp.stop, psp.stop + t.len⟩, ts⟩ with
      | some r =>
        rw [hc] at h
        cases r with
        | ok pe =>
          have h2 : (Except.ok (some pe) : Except Unit (Option (Parser × Event))) = .ok none := h
          simp at h2
        | error e =>
          have h2 : (Except.error e : Except Unit (Option (Parser × Event))) = .ok none := h
          simp at h2
      | none =>
        rw [hc] at h
        cases ha : parse_atom t ⟨po, pev, ⟨psp.stop, psp.stop + t.len⟩, ts⟩ with
        | some ev0 =>
          rw [ha] at h
          have h2 : (Except.ok (some (⟨po, pev, ⟨psp.stop, psp.stop + t.len⟩, ts⟩, ev0)) :
              Except Unit (Option (Parser × Event))) = .ok none := h
          simp at h2
        | none =>
          rw [ha] at h
          have h2 : (Except.ok (some (⟨po, pev, ⟨psp.stop, psp.stop + t.len⟩, ts⟩,
              node .Str ⟨po, pev, ⟨psp.stop, psp.stop + t.len⟩, ts⟩)) :
              Except Unit (Option (Parser × Event))) = .ok none := h
          simp at h2

end inline

namespace inline

theorem parse_event_step (p q : Parser) (ev : Event)
    (h : parse_event p = .ok (some (q, ev))) :
    q.tokens.length < p.tokens.length ∧
    q.tokens.IsSuffix p.tokens ∧
    q.span.stop + sumLens q.tokens = p.span.stop + sumLens p.tokens ∧
    (p.span.stop ≤ ev.span.start ∧ ev.span.start ≤ ev.span.stop ∧
      ev.span.stop ≤ q.span.stop) ∧
    ( (q.openers = p.openers ∧ q.events = p.events ∧
        ev.span.start = p.span.stop ∧ ev.span.stop = q.span.stop ∧
        q.tokens = p.tokens.tail ∧
        ((∃ k, ev.kind = .Node k) ∨ (∃ a, ev.kind = .Atom a)))
    ∨ (q.openers = p.openers ∧ q.events = p.events ∧
        (∃ bt ∈ p.tokens, bt.kind = lex.Kind.Seq .Backtick) ∧
        (∃ k, ev.kind = .Node k))
    ∨ (∃ c, q.openers = p.openers ++ [(c, p.events.length)] ∧ q.events = p.events ∧
        ev.span.start = p.span.stop ∧ ev.span.stop = q.span.stop ∧
        q.tokens = p.tokens.tail ∧ ev.kind = .Enter c .Unclosed)
    ∨ (∃ c o i c0 st0 sp0,
        rposition (fun x => decide (x.1 = c)) p.openers = some o ∧
        p.openers[o]? = some (c, i) ∧
        p.events[i]? = some ⟨.Enter c0 st0, sp0⟩ ∧
        q.openers = p.openers.take o ∧
        q.events = p.events.set i ⟨.Enter c0 .Closed, sp0⟩ ∧
        ev.span.start = p.span.stop ∧ ev.span.stop = q.span.stop ∧
        q.tokens = p.tokens.tail ∧ ev.kind = .Exit c) ) := by
  obtain ⟨po, pev, psp, pts⟩ := p
  cases pts with
  | nil => rw [parse_event_nil] at h; simp at h
  | cons t ts =>
    dsimp only
    rw [parse_event_cons] at h
    cases hv : parse_verbatim t ⟨po, pev, ⟨psp.stop, psp.stop + t.len⟩, ts⟩ with
    | some pe =>
      rw [hv] at h
      obtain ⟨q', ev'⟩ := pe
      have h2 : (Except.ok (some (q', ev')) : Except Unit (Option (Parser × Event))) =
          .ok (some (q, ev)) := h
      injection h2 with h3
      injection h3 with h4
      obtain ⟨rfl, rfl⟩ := Prod.mk.inj h4
      obtain ⟨hop, hev2, hstart, hsuf, hpos, ⟨hi1, hi2, hi3⟩, hnode, hbt⟩ :=
        parse_verbatim_step _ _ _ _ hv
      have hop' : q'.openers = po := hop
      have hev2' : q'.events = pev := hev2
      have hsuf' : q'.tokens.IsSuffix ts := hsuf
      have hpos' : q'.span.stop + sumLens q'.tokens = psp.stop + t.len + sumLens ts := hpos
      have hi1' : psp.stop + t.len ≤ ev'.span.start := hi1
      have hlen := hsuf'.length_le
      refine ⟨?_, hsuf'.trans ⟨[t], rfl⟩, ?_, ⟨by omega, hi2, hi3⟩,
        Or.inr (Or.inl ⟨hop', hev2', ?_, hnode⟩)⟩
      · simp only [List.length_cons]; omega
      · rw [sumLens_cons]; omega
      · rcases hbt with hbtk | ⟨bt, hmem, hbtk⟩
        · exact ⟨t, by simp, hbtk⟩
        · exact ⟨bt, List.mem_cons_of_mem t hmem, hbtk⟩
    | none =>
      rw [hv] at h
      cases hc : parse_container t ⟨po, pev, ⟨psp.stop, psp.stop + t.len⟩, ts⟩ with
      | some r =>
        rw [hc] at h
        cases r with
        | error e =>
          have h2 : (Except.error e : Except Unit (Option (Parser × Event))) =
              .ok (some (q, ev)) := h
          simp at h2
        | ok pe =>
          obtain ⟨q', ev'⟩ := pe
          have h2 : (Except.ok (some (q', ev')) : Except Unit (Option (Parser × Event))) =
              .ok (some (q, ev)) := h
          injection h2 with h3
          injection h3 with h4
          obtain ⟨rfl, rfl⟩ := Prod.mk.inj h4
          obtain ⟨c, d, hco, hcase⟩ := parse_container_cases _ _ _ hc
          rcases hcase with hopen | ⟨o, i, c0, st0, sp0, hrp, hgo, hd, hge, hr⟩ | herr
          · injection hopen with h5
            obtain ⟨hq, hev5⟩ := Prod.mk.inj h5
            have hq' : q' = ⟨po ++ [(c, pev.length)], pev, ⟨psp.stop, psp.stop + t.len⟩, ts⟩ := hq
            have hev5' : ev' = ⟨.Enter c .Unclosed, ⟨psp.stop, psp.stop + t.len⟩⟩ := hev5
            subst hq'
            subst hev5'
            refine ⟨by simp, ⟨[t], rfl⟩, ?_, ⟨by simp, by simp, by simp⟩,
              Or.inr (Or.inr (Or.inl ⟨c, rfl, rfl, rfl, rfl, rfl, rfl⟩))⟩
            · show psp.stop + t.len + sumLens ts = psp.stop + sumLens (t :: ts)
              rw [sumLens_cons]; omega
          · injection hr with h5
            obtain ⟨hq, hev5⟩ := Prod.mk.inj h5
            have hq' : q' = ⟨List.take o po, pev.set i ⟨.Enter c0 .Closed, sp0⟩,
                ⟨psp.stop, psp.stop + t.len⟩, ts⟩ := hq
            have hev5' : ev' = ⟨.Exit c, ⟨psp.stop, psp.stop + t.len⟩⟩ := hev5
            subst hq'
            subst hev5'
            have hrp' : rposition (fun x => decide (x.1 = c)) po = some o := hrp
            have hgo' : po[o]? = some (c, i) := hgo
            have hge' : pev[i]? = some ⟨.Enter c0 st0, sp0⟩ := hge
            refine ⟨by simp, ⟨[t], rfl⟩, ?_, ⟨by simp, by simp, by simp⟩,
              Or.inr (Or.inr (Or.inr ⟨c, o, i, c0, st0, sp0, hrp', hgo', hge',
                rfl, rfl, rfl, rfl, rfl, rfl⟩))⟩
            · show psp.stop + t.len + sumLens ts = psp.stop + sumLens (t :: ts)
              rw [sumLens_cons]; omega
          · have h6 : (Except.ok (q', ev') : Except Unit (Parser × Event)) = .error () := herr
            simp at h6
      | none =>
        rw [hc] at h
        cases ha : parse_atom t ⟨po, pev, ⟨psp.stop, psp.stop + t.len⟩, ts⟩ with
        | some ev0 =>
          rw [ha] at h
          have h2 : (Except.ok (some (⟨po, pev, ⟨psp.stop, psp.stop + t.len⟩, ts⟩, ev0)) :
              Except Unit (Option (Parser × Event))) = .ok (some (q, ev)) := h
          injection h2 with h3
          injection h3 with h4
          obtain ⟨hq, hev5⟩ := Prod.mk.inj h4
          obtain ⟨hsp, a0, hka⟩ := parse_atom_step _ _ _ ha
          have hq' : q = ⟨po, pev, ⟨psp.stop, psp.stop + t.len⟩, ts⟩ := hq.symm
          subst hq'
          subst hev5
          have hsp' : ev0.span = ⟨psp.stop, psp.stop + t.len⟩ := hsp
          refine ⟨by simp, ⟨[t], rfl⟩, ?_, ⟨by simp [hsp'], by simp [hsp'], by simp [hsp']⟩,
            Or.inl ⟨rfl, rfl, by simp [hsp'], by simp [hsp'], rfl, Or.inr ⟨a0, hka⟩⟩⟩
          · show psp.stop + t.len + sumLens ts = psp.stop + sumLens (t :: ts)
            rw [sumLens_cons]; omega
        | none =>
          rw [ha] at h
          have h2 : (Except.ok (some (⟨po, pev, ⟨psp.stop, psp.stop + t.len⟩, ts⟩,
              ⟨.Node .Str, ⟨psp.stop, psp.stop + t.len⟩⟩)) :
              Except Unit (Option (Parser × Event))) = .ok (some (q, ev)) := h
          injection h2 with h3
          injection h3 with h4
          obtain ⟨hq, hev5⟩ := Prod.mk.inj h4
          have hq' : q = ⟨po, pev, ⟨psp.stop, psp.stop + t.len⟩, ts⟩ := hq.symm
          subst hq'
          subst hev5
          refine ⟨by simp, ⟨[t], rfl⟩, ?_, ⟨by simp, by simp, by simp⟩,
            Or.inl ⟨rfl, rfl, rfl, rfl, rfl, Or.inl ⟨.Str, rfl⟩⟩⟩
          · show psp.stop + t.len + sumLens ts = psp.stop + sumLens (t :: ts)
            rw [sumLens_cons]; omega

end inline

namespace inline

/-- The buffering loop of `impl Iterator for Parser`: while the event queue is
empty or an opener is outstanding, parse events and push them to the back of the
queue; stop when the lexer is exhausted.  The `error` is `parse_container`'s
panic. -/
def pump (p : Parser) : Except Unit Parser :=
  if p.events.isEmpty || !p.openers.isEmpty then
    match h : parse_event p with
    | .error _ => .error ()
    | .ok none => .ok p
    | .ok (some pe) => pump { pe.1 with events := pe.1.events ++ [pe.2] }
  else .ok p
termination_by p.tokens.length
decreasing_by
  exact (parse_event_step p pe.1 pe.2 h).1

/-- `Iterator::next` of the inline `Parser`: run the buffering loop, then pop the
front of the event queue (`none` when the queue stays empty). -/
def next (p : Parser) : Except Unit (Parser × Option Event) :=
  match pump p with
  | .error e => .error e
  | .ok s =>
    match s.events with
    | [] => .ok (s, none)
    | e :: es => .ok ({ s with events := es }, some e)

theorem pump_props (p : Parser) : ∀ s, pump p = .ok s →
    s.tokens.length + s.events.length ≤ p.tokens.length + p.events.length ∧
    s.tokens.length ≤ p.tokens.length ∧
    p.events.length ≤ s.events.length ∧
    (s.openers = [] ∨ s.tokens = []) := by
  intro s h
  rw [pump] at h
  split at h
  · split at h
    · exact (Except.noConfusion h)
    · rename_i hpe
      injection h with h2
      subst h2
      have hnil := parse_event_none_tokens _ hpe
      exact ⟨le_refl _, le_refl _, le_refl _, Or.inr hnil⟩
    · rename_i pe hpe
      obtain ⟨hlt, _, _, _, hshape⟩ := parse_event_step p pe.1 pe.2 hpe
      have hevlen : pe.1.events.length = p.events.length := by
        rcases hshape with ⟨_, he, _⟩ | ⟨_, he, _⟩ | ⟨c, _, he, _⟩ |
          ⟨c, o, i, c0, st0, sp0, _, _, _, _, he, _⟩ <;> rw [he] <;> simp
      have hdec : ({ pe.1 with events := pe.1.events ++ [pe.2] } : Parser).tokens.length <
          p.tokens.length := hlt
      have hm := pump_props ({ pe.1 with events := pe.1.events ++ [pe.2] }) s h
      have hq : ({ pe.1 with events := pe.1.events ++ [pe.2] } : Parser).events.length =
          pe.1.events.length + 1 := by simp
      have hqt : ({ pe.1 with events := pe.1.events ++ [pe.2] } : Parser).tokens.length =
          pe.1.tokens.length := rfl
      rw [hq, hqt] at hm
      exact ⟨by omega, by omega, by omega, hm.2.2.2⟩
  · rename_i hcond
    injection h with h2
    subst h2
    have hop : p.openers = [] := by
      cases hpo : p.openers with
      | nil => rfl
      | cons a l => exact absurd (by simp [hpo]) hcond
    exact ⟨le_refl _, le_refl _, le_refl _, Or.inl hop⟩
termination_by p.tokens.length
decreasing_by
  exact hdec

end inline

namespace inline

theorem next_cases (p : Parser) (r : Parser × Option Event) (h : next p = .ok r) :
    ∃ s, pump p = .ok s ∧
      ((s.events = [] ∧ r = (s, none)) ∨
       (∃ e es, s.events = e :: es ∧ r = ({ s with events := es }, some e))) := by
  unfold next at h
  cases hp : pump p with
  | error e0 => rw [hp] at h; exact (Except.noConfusion h)
  | ok s =>
    rw [hp] at h
    refine ⟨s, rfl, ?_⟩
    change (match s.events with
      | [] => Except.ok (s, (none : Option Event))
      | e :: es => Except.ok ({ s with events := es }, some e)) = Except.ok r at h
    cases hse : s.events with
    | nil =>
      rw [hse] at h
      have h2 : (Except.ok (s, (none : Option Event)) :
          Except Unit (Parser × Option Event)) = .ok r := h
      injection h2 with h3
      exact Or.inl ⟨rfl, h3.symm⟩
    | cons e0 es =>
      rw [hse] at h
      have h2 : (Except.ok ({ s with events := es }, some e0) :
          Except Unit (Parser × Option Event)) = .ok r := h
      injection h2 with h3
      exact Or.inr ⟨e0, es, rfl, h3.symm⟩

theorem next_measure (p p' : Parser) (e : Event) (h : next p = .ok (p', some e)) :
    p'.tokens.length + p'.events.length < p.tokens.length + p.events.length := by
  obtain ⟨s, hp, hcase⟩ := next_cases p _ h
  have hm := pump_props p s hp
  rcases hcase with ⟨hse, hr⟩ | ⟨e0, es, hse, hr⟩
  · exact Option.noConfusion (congrArg Prod.snd hr)
  · obtain ⟨hpeq, _⟩ := Prod.mk.inj hr
    rw [hpeq]
    rw [hse] at hm
    simp only [List.length_cons] at hm
    simp only []
    omega

/-- Collect the whole inline event stream: call `next` repeatedly until it
returns `none`, keeping the events in order.  The `error` is the resolver's
panic. -/
def drain (p : Parser) : Except Unit (List Event) :=
  match hn : next p with
  | .error _ => .error ()
  | .ok (_, none) => .ok []
  | .ok (p', some e) => (drain p').map (e :: ·)
termination_by p.tokens.length + p.events.length
decreasing_by
  exact next_measure p p' e hn

/-- Run the inline resolver on a whole token stream: `Parser::new()` (span
`Span::new(0, 0)`, empty opener stack and event queue), feed it the lexer's
tokens, and collect every event the iterator produces. -/
def parse (toks : List lex.Token) : Except Unit (List Event) :=
  drain ⟨[], [], Span.new 0 0, toks⟩

end inline

namespace inline

theorem pump_eq (p : Parser) : pump p =
    (if p.events.isEmpty || !p.openers.isEmpty then
      match parse_event p with
      | .error _ => .error ()
      | .ok none => .ok p
      | .ok (some pe) => pump { pe.1 with events := pe.1.events ++ [pe.2] }
    else .ok p) := by
  rw [pump]
  split
  · cases hpe : parse_event p with
    | error e => rfl
    | ok o =>
      cases o with
      | none => rfl
      | some pe => rfl
  · rfl

theorem drain_eq (p : Parser) : drain p =
    (match next p with
     | .error _ => .error ()
     | .ok (_, none) => .ok []
     | .ok (p', some e) => (drain p').map (e :: ·)) := by
  rw [drain]
  cases hn : next p with
  | error e => rfl
  | ok o =>
    obtain ⟨p', oe⟩ := o
    cases oe with
    | none => rfl
    | some e => rfl

end inline

namespace inline

/-- The nesting discipline claimed for the finished stream: reading left to
right, `Enter(c, Closed)` pushes `c`, `Exit(c)` pops exactly a matching `c`, and
every other event (including `Enter(_, Unclosed)`) is skipped; the result is the
remaining stack, or `none` on a mismatched exit. -/
def matchRun : List Container → List Event → Option (List Container)
  | stk, [] => some stk
  | stk, e :: l =>
    match e.kind with
    | .Enter c .Closed => matchRun (c :: stk) l
    | .Exit c =>
      match stk with
      | c' :: stk' => if c' = c then matchRun stk' l else none
      | [] => none
    | _ => matchRun stk l

/-- Flip the buffered `Enter` event recorded by one opener-stack entry to
`Closed`, keeping its span (what the closing path of `parse_container` does). -/
def flipOne (evs : List Event) (x : Container × Nat) : List Event :=
  match evs[x.2]? with
  | some ev => evs.set x.2 ⟨.Enter x.1 .Closed, ev.span⟩
  | none => evs

/-- Flip the events recorded by a set of opener-stack entries. -/
def flip (evs : List Event) (T : List (Container × Nat)) : List Event :=
  T.foldl flipOne evs

/-- Claim C10's invariant: every opener-stack entry `(c, i)` points at event
queue index `i`, which holds an `Enter(c, Unclosed)` event. -/
def openersOk (p : Parser) : Prop :=
  ∀ x ∈ p.openers, ∃ sp, p.events[x.2]? = some ⟨.Enter x.1 .Unclosed, sp⟩

/-- Opener-stack entries record strictly increasing queue indices. -/
def openersMono (p : Parser) : Prop :=
  p.openers.Pairwise (fun x y => x.2 < y.2)

/-- Closing any sublist of the outstanding openers leaves the queue matched,
with exactly the flipped containers still open (rightmost on top). -/
def matchInv (p : Parser) : Prop :=
  ∀ T, T.Sublist p.openers →
    matchRun [] (flip p.events T) = some ((T.map Prod.fst).reverse)

/-- The inductive invariant of the inline resolver's state. -/
def Inv (p : Parser) : Prop := openersOk p ∧ openersMono p ∧ matchInv p

/-- The spans of an event list, in order. -/
def spans (evs : List Event) : List Span := evs.map Event.span

/-- `chainBound b l n`: the spans of `l` are in order, non-overlapping and lie
within the region from `b` to `n`. -/
def chainBound (b : Nat) : List Span → Nat → Bool
  | [], n => decide (b ≤ n)
  | sp :: l, n => decide (b ≤ sp.start) && decide (sp.start ≤ sp.stop) &&
      chainBound sp.stop l n

/-- `tileChain b l n`: the spans of `l` tile the region from `b` to `n` exactly,
with no gaps and no overlaps. -/
def tileChain (b : Nat) : List Span → Nat → Bool
  | [], n => decide (b = n)
  | sp :: l, n => decide (sp.start = b) && tileChain sp.stop l n

/-- No backtick-sequence token occurs in the stream (so no verbatim or math
scan can trigger). -/
def noBacktick (ts : List lex.Token) : Bool :=
  ts.all fun t => !(decide (t.kind = lex.Kind.Seq .Backtick))

theorem matchRun_append (a : List Event) : ∀ (b : List Event) (stk : List Container),
    matchRun stk (a ++ b) = (matchRun stk a).bind (fun s => matchRun s b) := by
  induction a with
  | nil => intro b stk; simp [matchRun]
  | cons e l ih =>
    intro b stk
    simp only [List.cons_append, matchRun]
    cases hk : e.kind with
    | Enter c st => cases st <;> simp [ih]
    | Exit c =>
      cases stk with
      | nil => simp
      | cons c' stk' =>
        by_cases hcc : c' = c <;> simp [hcc, ih]
    | Atom a0 => simp [ih]
    | Node n0 => simp [ih]

theorem matchRun_skip (e : Event) (stk : List Container)
    (h1 : ∀ c, e.kind ≠ .Enter c .Closed) (h2 : ∀ c, e.kind ≠ .Exit c) :
    matchRun stk [e] = some stk := by
  cases hk : e.kind with
  | Enter c st =>
    cases st with
    | Unclosed => simp [matchRun, hk]
    | Closed => exact absurd hk (h1 c)
  | Exit c => exact absurd hk (h2 c)
  | Atom a0 => simp [matchRun, hk]
  | Node n0 => simp [matchRun, hk]

theorem flip_cons (evs : List Event) (x : Container × Nat) (T : List (Container × Nat)) :
    flip evs (x :: T) = flip (flipOne evs x) T := rfl

theorem flip_concat (evs : List Event) (T : List (Container × Nat)) (x : Container × Nat) :
    flip evs (T ++ [x]) = flipOne (flip evs T) x := by
  simp [flip, List.foldl_append]

theorem flipOne_length (evs : List Event) (x : Container × Nat) :
    (flipOne evs x).length = evs.length := by
  unfold flipOne
  cases h : evs[x.2]? <;> simp

theorem flip_length (T : List (Container × Nat)) : ∀ (evs : List Event),
    (flip evs T).length = evs.length := by
  induction T with
  | nil => intro evs; rfl
  | cons x T ih => intro evs; rw [flip_cons, ih, flipOne_length]

theorem flipOne_getElem?_ne (evs : List Event) (x : Container × Nat) (i : Nat)
    (h : x.2 ≠ i) : (flipOne evs x)[i]? = evs[i]? := by
  unfold flipOne
  cases hg : evs[x.2]? with
  | none => rfl
  | some ev =>
    show (evs.set x.2 ⟨.Enter x.1 .Closed, ev.span⟩)[i]? = evs[i]?
    rw [List.getElem?_set, if_neg h]

theorem flip_getElem?_ne (T : List (Container × Nat)) : ∀ (evs : List Event) (i : Nat),
    (∀ x ∈ T, x.2 ≠ i) → (flip evs T)[i]? = evs[i]? := by
  induction T with
  | nil => intro evs i _; rfl
  | cons x T ih =>
    intro evs i h
    rw [flip_cons, ih _ _ (fun y hy => h y (List.mem_cons_of_mem x hy)),
      flipOne_getElem?_ne _ _ _ (h x (List.mem_cons_self x T))]

theorem flipOne_append (evs l2 : List Event) (x : Container × Nat)
    (h : x.2 < evs.length) : flipOne (evs ++ l2) x = flipOne evs x ++ l2 := by
  unfold flipOne
  rw [List.getElem?_append_left h]
  cases hg : evs[x.2]? with
  | none => simp [List.getElem?_eq_none_iff] at hg; omega
  | some ev =>
    show (evs ++ l2).set x.2 ⟨.Enter x.1 .Closed, ev.span⟩ =
      evs.set x.2 ⟨.Enter x.1 .Closed, ev.span⟩ ++ l2
    rw [List.set_append_left _ _ h]

theorem flip_append (T : List (Container × Nat)) : ∀ (evs l2 : List Event),
    (∀ x ∈ T, x.2 < evs.length) → flip (evs ++ l2) T = flip evs T ++ l2 := by
  induction T with
  | nil => intro evs l2 _; rfl
  | cons x T ih =>
    intro evs l2 h
    rw [flip_cons, flipOne_append _ _ _ (h x (List.mem_cons_self x T)), flip_cons]
    rw [ih]
    intro y hy
    rw [flipOne_length]
    exact h y (List.mem_cons_of_mem x hy)

theorem flipOne_set_comm (evs : List Event) (x : Container × Nat) (i : Nat) (v : Event)
    (h : x.2 ≠ i) : flipOne (evs.set i v) x = (flipOne evs x).set i v := by
  unfold flipOne
  rw [List.getElem?_set, if_neg (fun hh => h hh.symm)]
  cases hg : evs[x.2]? with
  | none => rfl
  | some ev =>
    show (evs.set i v).set x.2 ⟨.Enter x.1 .Closed, ev.span⟩ =
      (evs.set x.2 ⟨.Enter x.1 .Closed, ev.span⟩).set i v
    rw [List.set_comm _ _ _ (fun hh => h hh)]

theorem flip_set_comm (T : List (Container × Nat)) : ∀ (evs : List Event) (i : Nat) (v : Event),
    (∀ x ∈ T, x.2 ≠ i) → flip (evs.set i v) T = (flip evs T).set i v := by
  induction T with
  | nil => intro evs i v _; rfl
  | cons x T ih =>
    intro evs i v h
    rw [flip_cons, flipOne_set_comm _ _ _ _ (h x (List.mem_cons_self x T)), flip_cons,
      ih _ _ _ (fun y hy => h y (List.mem_cons_of_mem x hy))]

theorem spans_set_same (evs : List Event) (i : Nat) (k k0 : EventKind)
    (sp : Span) (h : evs[i]? = some ⟨k0, sp⟩) :
    spans (evs.set i ⟨k, sp⟩) = spans evs := by
  unfold spans
  rw [List.map_set]
  apply List.ext_getElem?
  intro j
  rw [List.getElem?_set]
  by_cases hj : i = j
  · subst hj
    have hi : i < evs.length := by
      rcases List.getElem?_eq_some_iff.mp h with ⟨hlt, _⟩
      exact hlt
    rw [if_pos rfl, if_pos (by simpa using hi), List.getElem?_map, h]
    rfl
  · rw [if_neg hj]

end inline

namespace inline

theorem chainBound_le (l : List Span) : ∀ (b n n' : Nat), n ≤ n' →
    chainBound b l n = true → chainBound b l n' = true := by
  induction l with
  | nil => intro b n n' hle h; simp [chainBound] at h ⊢; omega
  | cons sp l ih =>
    intro b n n' hle h
    simp only [chainBound, Bool.and_eq_true, decide_eq_true_eq] at h ⊢
    exact ⟨h.1, ih _ _ _ hle h.2⟩

theorem chainBound_ge (l : List Span) (b b' n : Nat) (hb : b' ≤ b)
    (h : chainBound b l n = true) : chainBound b' l n = true := by
  cases l with
  | nil => simp [chainBound] at h ⊢; omega
  | cons sp l =>
    simp only [chainBound, Bool.and_eq_true, decide_eq_true_eq] at h ⊢
    exact ⟨⟨by omega, h.1.2⟩, h.2⟩

theorem chainBound_compose (A : List Span) : ∀ (B : List Span) (b m n : Nat),
    chainBound b A m = true → chainBound m B n = true →
    chainBound b (A ++ B) n = true := by
  induction A with
  | nil =>
    intro B b m n hA hB
    simp only [chainBound, decide_eq_true_eq] at hA
    exact chainBound_ge B m b n hA hB
  | cons sp A ih =>
    intro B b m n hA hB
    simp only [chainBound, Bool.and_eq_true, decide_eq_true_eq] at hA ⊢
    exact ⟨hA.1, ih B _ m n hA.2 hB⟩

theorem chainBound_snoc (l : List Span) (s : Span) (b m n : Nat)
    (h : chainBound b l m = true) (h1 : m ≤ s.start) (h2 : s.start ≤ s.stop)
    (h3 : s.stop ≤ n) : chainBound b (l ++ [s]) n = true := by
  refine chainBound_compose l [s] b m n h ?_
  simp [chainBound]
  omega

theorem tileChain_compose (A : List Span) : ∀ (B : List Span) (b m n : Nat),
    tileChain b A m = true → tileChain m B n = true →
    tileChain b (A ++ B) n = true := by
  induction A with
  | nil =>
    intro B b m n hA hB
    simp only [tileChain, decide_eq_true_eq] at hA
    rw [hA]
    exact hB
  | cons sp A ih =>
    intro B b m n hA hB
    simp only [tileChain, Bool.and_eq_true, decide_eq_true_eq] at hA ⊢
    exact ⟨hA.1, ih B _ m n hA.2 hB⟩

theorem tileChain_snoc (l : List Span) (s : Span) (b m : Nat)
    (h : tileChain b l m = true) (h1 : s.start = m) :
    tileChain b (l ++ [s]) s.stop = true := by
  refine tileChain_compose l [s] b m s.stop h ?_
  simp [tileChain, h1]

theorem sublist_concat_cases {α : Type} (T' l : List α) (a : α)
    (h : T'.Sublist (l ++ [a])) :
    T'.Sublist l ∨ ∃ T, T.Sublist l ∧ T' = T ++ [a] := by
  rcases List.sublist_append_iff.mp h with ⟨r1, r2, hT, h1, h2⟩
  rcases List.sublist_singleton.mp h2 with rfl | rfl
  · left; rw [hT, List.append_nil]; exact h1
  · right; exact ⟨r1, h1, hT⟩

theorem set_concat_length {α : Type} (l : List α) (e v : α) :
    (l ++ [e]).set l.length v = l ++ [v] := by
  apply List.ext_getElem?
  intro j
  rw [List.getElem?_set]
  by_cases hj : l.length = j
  · subst hj
    rw [if_pos rfl, if_pos (by simp)]
    rw [List.getElem?_concat_length]
  · rw [if_neg hj]
    by_cases hlt : j < l.length
    · rw [List.getElem?_append_left hlt, List.getElem?_append_left hlt]
    · rw [List.getElem?_append_right (by omega), List.getElem?_append_right (by omega)]
      rw [List.getElem?_eq_none_iff.mpr (by show 1 ≤ j - l.length; omega),
        List.getElem?_eq_none_iff.mpr (by show 1 ≤ j - l.length; omega)]

end inline

namespace inline

theorem openersOk_lt (p : Parser) (hOk : openersOk p) :
    ∀ x ∈ p.openers, x.2 < p.events.length := by
  intro x hx
  obtain ⟨sp, hsp⟩ := hOk x hx
  rcases List.getElem?_eq_some_iff.mp hsp with ⟨hlt, _⟩
  exact hlt

theorem inv_step_skip (pev : List Event) (op : List (Container × Nat)) (ev : Event)
    (hOk : ∀ x ∈ op, ∃ sp, pev[x.2]? = some ⟨.Enter x.1 .Unclosed, sp⟩)
    (hMatch : ∀ T, T.Sublist op →
      matchRun [] (flip pev T) = some ((T.map Prod.fst).reverse))
    (hk1 : ∀ c, ev.kind ≠ .Enter c .Closed) (hk2 : ∀ c, ev.kind ≠ .Exit c) :
    (∀ x ∈ op, ∃ sp, (pev ++ [ev])[x.2]? = some ⟨.Enter x.1 .Unclosed, sp⟩) ∧
    (∀ T, T.Sublist op →
      matchRun [] (flip (pev ++ [ev]) T) = some ((T.map Prod.fst).reverse)) := by
  have hbnd : ∀ x ∈ op, x.2 < pev.length := by
    intro x hx
    obtain ⟨sp, hsp⟩ := hOk x hx
    rcases List.getElem?_eq_some_iff.mp hsp with ⟨hlt, _⟩
    exact hlt
  constructor
  · intro x hx
    obtain ⟨sp, hsp⟩ := hOk x hx
    exact ⟨sp, by rw [List.getElem?_append_left (hbnd x hx)]; exact hsp⟩
  · intro T hT
    rw [flip_append T pev [ev] (fun x hx => hbnd x (hT.subset hx))]
    rw [matchRun_append, hMatch T hT]
    exact matchRun_skip ev _ hk1 hk2

theorem step_inv (p q : Parser) (ev : Event)
    (h : parse_event p = .ok (some (q, ev))) (hInv : Inv p) :
    Inv { q with events := q.events ++ [ev] } := by
  obtain ⟨hOk, hMono, hMatch⟩ := hInv
  have hbnd := openersOk_lt p hOk
  obtain ⟨hlt, hsuf, hpos, hsp, hshape⟩ := parse_event_step p q ev h
  rcases hshape with ⟨hop, hev, _, _, _, hkind⟩ | ⟨hop, hev, _, hkind⟩ |
    ⟨c, hop, hev, _, _, _, hkind⟩ |
    ⟨c, o, i, c0, st0, sp0, hrp, hgo, hge, hop, hev, _, _, _, hkind⟩
  · -- plain token: openers and queue unchanged, event is Node/Atom
    have hk1 : ∀ c, ev.kind ≠ .Enter c .Closed := by
      rcases hkind with ⟨k, hk⟩ | ⟨a, hk⟩ <;> intro c hc <;> rw [hk] at hc <;> cases hc
    have hk2 : ∀ c, ev.kind ≠ .Exit c := by
      rcases hkind with ⟨k, hk⟩ | ⟨a, hk⟩ <;> intro c hc <;> rw [hk] at hc <;> cases hc
    obtain ⟨hOk', hMatch'⟩ := inv_step_skip p.events p.openers ev hOk hMatch hk1 hk2
    exact ⟨by intro x hx; rw [hop] at hx; rw [hev]; exact hOk' x hx,
      by unfold openersMono; rw [hop]; exact hMono,
      by intro T hT; rw [hop] at hT; rw [hev]; exact hMatch' T hT⟩
  · -- verbatim: openers and queue unchanged, event is a Node
    obtain ⟨k, hk⟩ := hkind
    have hk1 : ∀ c, ev.kind ≠ .Enter c .Closed := by intro c hc; rw [hk] at hc; cases hc
    have hk2 : ∀ c, ev.kind ≠ .Exit c := by intro c hc; rw [hk] at hc; cases hc
    obtain ⟨hOk', hMatch'⟩ := inv_step_skip p.events p.openers ev hOk hMatch hk1 hk2
    exact ⟨by intro x hx; rw [hop] at hx; rw [hev]; exact hOk' x hx,
      by unfold openersMono; rw [hop]; exact hMono,
      by intro T hT; rw [hop] at hT; rw [hev]; exact hMatch' T hT⟩
  · -- new opener pushed
    have hevt : ev = ⟨.Enter c .Unclosed, ev.span⟩ := by
      obtain ⟨k, spn⟩ := ev
      have hk2 : k = .Enter c .Unclosed := hkind
      subst hk2
      rfl
    refine ⟨?_, ?_, ?_⟩
    · intro x hx
      rw [hop] at hx
      rw [hev]
      rcases List.mem_append.mp hx with hx1 | hx2
      · obtain ⟨sp, hsp⟩ := hOk x hx1
        exact ⟨sp, by rw [List.getElem?_append_left (hbnd x hx1)]; exact hsp⟩
      · rw [List.mem_singleton] at hx2
        subst hx2
        refine ⟨ev.span, ?_⟩
        show (p.events ++ [ev])[p.events.length]? = _
        rw [List.getElem?_concat_length, ← hevt]
    · unfold openersMono
      rw [hop]
      rw [List.pairwise_append]
      refine ⟨hMono, List.pairwise_singleton _ _, ?_⟩
      intro x hx y hy
      rw [List.mem_singleton] at hy
      subst hy
      exact hbnd x hx
    · intro T hT
      rw [hop] at hT
      rw [hev]
      rcases sublist_concat_cases T p.openers (c, p.events.length) hT with hT1 | ⟨T0, hT0, rfl⟩
      · rw [flip_append T p.events [ev] (fun x hx => hbnd x (hT1.subset hx))]
        rw [matchRun_append, hMatch T hT1]
        exact matchRun_skip ev _ (by intro c' hc; rw [hkind] at hc; cases hc)
          (by intro c' hc; rw [hkind] at hc; cases hc)
      · rw [flip_concat]
        rw [flip_append T0 p.events [ev] (fun x hx => hbnd x (hT0.subset hx))]
        have hL : (flip p.events T0).length = p.events.length := flip_length T0 p.events
        have hflip1 : flipOne (flip p.events T0 ++ [ev]) (c, p.events.length) =
            flip p.events T0 ++ [⟨.Enter c .Closed, ev.span⟩] := by
          unfold flipOne
          rw [show (flip p.events T0 ++ [ev])[(c, p.events.length).2]? = some ev from by
            show (flip p.events T0 ++ [ev])[p.events.length]? = some ev
            rw [← hL, List.getElem?_concat_length]]
          show (flip p.events T0 ++ [ev]).set p.events.length
            ⟨.Enter c .Closed, ev.span⟩ = _
          rw [← hL, set_concat_length]
        rw [hflip1, matchRun_append, hMatch T0 hT0]
        simp [matchRun]
  · -- closing the rightmost opener of the token's kind
    have hmem : (c, i) ∈ p.openers := List.getElem?_mem hgo
    obtain ⟨sp', hsp'⟩ := hOk (c, i) hmem
    have hc0 : c = c0 ∧ st0 = .Unclosed ∧ sp' = sp0 := by
      rw [hge] at hsp'
      injection hsp' with h5
      injection h5 with h6 h7
      injection h6 with h8 h9
      exact ⟨h8.symm, h9, h7.symm⟩
    obtain ⟨rfl, rfl, rfl⟩ := hc0
    have ho_lt : o < p.openers.length := by
      rcases List.getElem?_eq_some_iff.mp hgo with ⟨hlt2, _⟩
      exact hlt2
    have htake : ∀ x ∈ p.openers.take o, x.2 < i := by
      intro x hx
      have hsplit := List.take_append_drop o p.openers
      have hpw : List.Pairwise (fun x y => x.2 < y.2)
          (p.openers.take o ++ p.openers.drop o) := by rw [hsplit]; exact hMono
      rw [List.pairwise_append] at hpw
      have hin : (c, i) ∈ p.openers.drop o := by
        rw [List.drop_eq_getElem_cons ho_lt]
        have : p.openers[o] = (c, i) := by
          rcases List.getElem?_eq_some_iff.mp hgo with ⟨_, hh⟩
          exact hh
        rw [this]
        exact List.mem_cons_self _ _
      exact hpw.2.2 x hx (c, i) hin
    have hi_lt : i < p.events.length := by
      rcases List.getElem?_eq_some_iff.mp hge with ⟨hlt2, _⟩
      exact hlt2
    refine ⟨?_, ?_, ?_⟩
    · intro x hx
      rw [hop] at hx
      have hxmem : x ∈ p.openers := List.Sublist.subset (List.take_sublist o p.openers) hx
      obtain ⟨sp2, hsp2⟩ := hOk x hxmem
      have hxi : x.2 ≠ i := by
        have := htake x hx
        omega
      have hxlt : x.2 < (p.events.set i (⟨.Enter c .Closed, sp'⟩ : Event)).length := by
        rw [List.length_set]
        exact hbnd x hxmem
      refine ⟨sp2, ?_⟩
      show (q.events ++ [ev])[x.2]? = _
      rw [hev]
      rw [List.getElem?_append_left hxlt]
      rw [List.getElem?_set, if_neg (fun hh => hxi hh.symm)]
      exact hsp2
    · unfold openersMono
      rw [hop]
      exact List.Pairwise.sublist (List.take_sublist o p.openers) hMono
    · intro T hT
      rw [hop] at hT
      rw [hev]
      have hTne : ∀ x ∈ T, x.2 ≠ i := by
        intro x hx
        have := htake x (hT.subset hx)
        omega
      have hTbnd : ∀ x ∈ T, x.2 < p.events.length := by
        intro x hx
        exact hbnd x (List.Sublist.subset (List.take_sublist o p.openers) (hT.subset hx))
      rw [flip_append T _ [ev] (by intro x hx; rw [List.length_set]; exact hTbnd x hx)]
      rw [flip_set_comm T p.events i _ hTne]
      have hstep : (flip p.events T).set i ⟨.Enter c .Closed, sp'⟩ =
          flip p.events (T ++ [(c, i)]) := by
        rw [flip_concat]
        unfold flipOne
        rw [show (flip p.events T)[(c, i).2]? = some ⟨.Enter c .Unclosed, sp'⟩ from by
          show (flip p.events T)[i]? = _
          rw [flip_getElem?_ne T p.events i hTne]; exact hsp']
      rw [hstep]
      have hsub : (T ++ [(c, i)]).Sublist p.openers := by
        have h1 : (T ++ [(c, i)]).Sublist (p.openers.take o ++ [(c, i)]) :=
          List.Sublist.append hT (List.Sublist.refl _)
        have h2 : p.openers.take o ++ [(c, i)] = p.openers.take (o + 1) := by
          rw [List.take_succ]
          rw [show p.openers[o]? = some (c, i) from hgo]
          rfl
        rw [h2] at h1
        exact h1.trans (List.take_sublist _ _)
      rw [matchRun_append, hMatch _ hsub]
      simp [matchRun, hkind]

end inline

namespace inline

theorem parse_container_no_error (first : lex.Token) (p : Parser)
    (hOk : openersOk p) (r : Except Unit (Parser × Event))
    (h : parse_container first p = some r) : r ≠ .error () := by
  cases hco : containerOf first.kind with
  | none => rw [parse_container_eq_nomatch first p hco] at h; cases h
  | some cd =>
    obtain ⟨c, d⟩ := cd
    cases hrp : rposition (fun x => decide (x.1 = c)) p.openers with
    | none =>
      rw [parse_container_eq_open first p c d hco hrp] at h
      injection h with h2
      rw [← h2]
      intro hbad
      cases hbad
    | some o =>
      obtain ⟨a, ha, hfa⟩ := rposition_get _ _ _ hrp
      obtain ⟨sp, hsp⟩ := hOk a (List.getElem?_mem ha)
      cases d with
      | Open =>
        rw [parse_container_eq_open2 first p c o hco hrp] at h
        injection h with h2
        rw [← h2]
        intro hbad
        cases hbad
      | Close =>
        rw [parse_container_eq_close first p c _ o a ⟨.Enter a.1 .Unclosed, sp⟩ a.1
          .Unclosed hco (Or.inl rfl) hrp ha hsp rfl] at h
        injection h with h2
        rw [← h2]
        intro hbad
        cases hbad
      | Both =>
        rw [parse_container_eq_close first p c _ o a ⟨.Enter a.1 .Unclosed, sp⟩ a.1
          .Unclosed hco (Or.inr rfl) hrp ha hsp rfl] at h
        injection h with h2
        rw [← h2]
        intro hbad
        cases hbad

theorem parse_event_no_error (p : Parser) (hOk : openersOk p)
    (h : parse_event p = .error ()) : False := by
  obtain ⟨po, pev, psp, pts⟩ := p
  cases pts with
  | nil => rw [parse_event_nil] at h; cases h
  | cons t ts =>
    rw [parse_event_cons] at h
    cases hv : parse_verbatim t ⟨po, pev, ⟨psp.stop, psp.stop + t.len⟩, ts⟩ with
    | some pe =>
      rw [hv] at h
      have h2 : (Except.ok (some pe) : Except Unit (Option (Parser × Event))) = .error () := h
      cases h2
    | none =>
      rw [hv] at h
      cases hc : parse_container t ⟨po, pev, ⟨psp.stop, psp.stop + t.len⟩, ts⟩ with
      | some r =>
        rw [hc] at h
        have hOk1 : openersOk ⟨po, pev, ⟨psp.stop, psp.stop + t.len⟩, ts⟩ := hOk
        have hne := parse_container_no_error t _ hOk1 r hc
        cases r with
        | ok pe =>
          have h2 : (Except.ok (some pe) : Except Unit (Option (Parser × Event))) =
            .error () := h
          cases h2
        | error e =>
          cases e
          exact hne rfl
      | none =>
        rw [hc] at h
        cases ha : parse_atom t ⟨po, pev, ⟨psp.stop, psp.stop + t.len⟩, ts⟩ with
        | some ev0 =>
          rw [ha] at h
          have h2 : (Except.ok (some (⟨po, pev, ⟨psp.stop, psp.stop + t.len⟩, ts⟩, ev0)) :
              Except Unit (Option (Parser × Event))) = .error () := h
          cases h2
        | none =>
          rw [ha] at h
          have h2 : (Except.ok (some (⟨po, pev, ⟨psp.stop, psp.stop + t.len⟩, ts⟩,
              node .Str ⟨po, pev, ⟨psp.stop, psp.stop + t.len⟩, ts⟩)) :
              Except Unit (Option (Parser × Event))) = .error () := h
          cases h2

theorem noBacktick_suffix (l1 l2 : List lex.Token) (h : l1.IsSuffix l2)
    (hn : noBacktick l2 = true) : noBacktick l1 = true := by
  unfold noBacktick at *
  rw [List.all_eq_true] at *
  intro t ht
  exact hn t (h.sublist.subset ht)

end inline

namespace inline

theorem pump_master (p : Parser) (hInv : Inv p) :
    ∃ s, pump p = .ok s ∧ Inv s ∧
      s.span.stop + sumLens s.tokens = p.span.stop + sumLens p.tokens ∧
      s.tokens.IsSuffix p.tokens ∧
      (∀ b, chainBound b (spans p.events) p.span.stop = true →
        chainBound b (spans s.events) s.span.stop = true) ∧
      (noBacktick p.tokens = true →
        ∀ b, tileChain b (spans p.events) p.span.stop = true →
          tileChain b (spans s.events) s.span.stop = true) := by
  rw [pump_eq]
  by_cases hcond : (p.events.isEmpty || !p.openers.isEmpty) = true
  · rw [if_pos hcond]
    cases hpe : parse_event p with
    | error e =>
      cases e
      exact (parse_event_no_error p hInv.1 hpe).elim
    | ok o =>
      cases o with
      | none =>
        exact ⟨p, rfl, hInv, rfl, List.suffix_refl _, fun b hb => hb, fun _ b hb => hb⟩
      | some pe =>
        obtain ⟨q, ev⟩ := pe
        have hInv2 : Inv { q with events := q.events ++ [ev] } := step_inv p q ev hpe hInv
        obtain ⟨hlt, hsuf, hpos, ⟨hs1, hs2, hs3⟩, hshape⟩ := parse_event_step p q ev hpe
        have hspanseq : spans q.events = spans p.events := by
          rcases hshape with ⟨_, he, _⟩ | ⟨_, he, _⟩ | ⟨c, _, he, _⟩ |
            ⟨c, o, i, c0, st0, sp0, _, _, hge, _, he, _⟩
          · rw [he]
          · rw [he]
          · rw [he]
          · rw [he]; exact spans_set_same p.events i _ _ sp0 hge
        have hdec : ({ q with events := q.events ++ [ev] } : Parser).tokens.length <
            p.tokens.length := hlt
        obtain ⟨s, hps, hInvs, hpos2, hsuf2, hchain2, htile2⟩ :=
          pump_master { q with events := q.events ++ [ev] } hInv2
        have hpos2' : s.span.stop + sumLens s.tokens =
            q.span.stop + sumLens q.tokens := hpos2
        have hsuf2' : s.tokens.IsSuffix q.tokens := hsuf2
        have hchain2' : ∀ b, chainBound b (spans (q.events ++ [ev])) q.span.stop = true →
            chainBound b (spans s.events) s.span.stop = true := hchain2
        have htile2' : noBacktick q.tokens = true →
            ∀ b, tileChain b (spans (q.events ++ [ev])) q.span.stop = true →
            tileChain b (spans s.events) s.span.stop = true := htile2
        have hq_spans : spans (q.events ++ [ev]) = spans p.events ++ [ev.span] := by
          unfold spans
          rw [List.map_append]
          show spans q.events ++ [ev.span] = spans p.events ++ [ev.span]
          rw [hspanseq]
        refine ⟨s, hps, hInvs, by omega, hsuf2'.trans hsuf, ?_, ?_⟩
        · intro b hb
          refine hchain2' b ?_
          rw [hq_spans]
          exact chainBound_snoc _ _ _ _ _ hb hs1 hs2 hs3
        · intro hnb b hb
          have hnb2 : noBacktick q.tokens = true := noBacktick_suffix _ _ hsuf hnb
          refine htile2' hnb2 b ?_
          rw [hq_spans]
          have hexact : ev.span.start = p.span.stop ∧ ev.span.stop = q.span.stop := by
            rcases hshape with ⟨_, _, he1, he2, _⟩ | ⟨_, _, ⟨bt, hbt, hbk⟩, _⟩ |
              ⟨c, _, _, he1, he2, _⟩ | ⟨c, o, i, c0, st0, sp0, _, _, _, _, _, he1, he2, _⟩
            · exact ⟨he1, he2⟩
            · exfalso
              unfold noBacktick at hnb
              rw [List.all_eq_true] at hnb
              have := hnb bt hbt
              simp [hbk] at this
            · exact ⟨he1, he2⟩
            · exact ⟨he1, he2⟩
          rw [← hexact.2]
          exact tileChain_snoc _ _ _ _ hb hexact.1
  · rw [if_neg hcond]
    exact ⟨p, rfl, hInv, rfl, List.suffix_refl _, fun b hb => hb, fun _ b hb => hb⟩
termination_by p.tokens.length
decreasing_by
  exact hdec

end inline

namespace inline

theorem Inv_init (sp : Span) (toks : List lex.Token) :
    Inv ⟨[], [], sp, toks⟩ := by
  refine ⟨?_, ?_, ?_⟩
  · intro x hx
    exact absurd hx (List.not_mem_nil x)
  · exact List.Pairwise.nil
  · intro T hT
    have hTnil : T = [] := List.sublist_nil.mp hT
    subst hTnil
    rfl

theorem pump_exhausted (p : Parser) (h : p.tokens = []) : pump p = .ok p := by
  obtain ⟨po, pev, psp, pts⟩ := p
  have h2 : pts = [] := h
  subst h2
  rw [pump_eq]
  split
  · rw [parse_event_nil]
  · rfl

theorem drain_exhausted : ∀ (E : List Event) (o : List (Container × Nat)) (sp : Span),
    drain ⟨o, E, sp, []⟩ = .ok E := by
  intro E
  induction E with
  | nil =>
    intro o sp
    rw [drain_eq]
    have hn : next ⟨o, [], sp, []⟩ = .ok (⟨o, [], sp, []⟩, none) := by
      unfold next
      rw [pump_exhausted ⟨o, [], sp, []⟩ rfl]
    rw [hn]
  | cons e E ih =>
    intro o sp
    rw [drain_eq]
    have hn : next ⟨o, e :: E, sp, []⟩ = .ok (⟨o, E, sp, []⟩, some e) := by
      unfold next
      rw [pump_exhausted ⟨o, e :: E, sp, []⟩ rfl]
    rw [hn]
    show (drain (⟨o, E, sp, []⟩ : Parser)).map (e :: ·) = .ok (e :: E)
    rw [ih o sp]
    rfl

theorem drain_pop_phase : ∀ (E : List Event) (sp : Span) (toks : List lex.Token),
    drain ⟨[], E, sp, toks⟩ = (drain ⟨[], [], sp, toks⟩).map (E ++ ·) := by
  intro E
  induction E with
  | nil =>
    intro sp toks
    cases hd : drain (⟨[], [], sp, toks⟩ : Parser) with
    | error e => rfl
    | ok l =>
      show Except.ok l = Except.ok ([] ++ l)
      rw [List.nil_append]
  | cons e E ih =>
    intro sp toks
    have hn : next ⟨[], e :: E, sp, toks⟩ = .ok (⟨[], E, sp, toks⟩, some e) := by
      unfold next
      have hp : pump ⟨[], e :: E, sp, toks⟩ = .ok ⟨[], e :: E, sp, toks⟩ := by
        rw [pump_eq]
        rfl
      rw [hp]
    rw [drain_eq, hn]
    show (drain (⟨[], E, sp, toks⟩ : Parser)).map (e :: ·) =
      (drain (⟨[], [], sp, toks⟩ : Parser)).map ((e :: E) ++ ·)
    rw [ih sp toks]
    cases hd : drain (⟨[], [], sp, toks⟩ : Parser) with
    | error e0 => rfl
    | ok l => rfl

end inline

namespace inline

theorem drain_decomp (sp : Span) (toks : List lex.Token) (hne : toks ≠ []) :
    ∃ s, pump ⟨[], [], sp, toks⟩ = .ok s ∧ Inv s ∧
      s.tokens.length < toks.length ∧
      s.span.stop + sumLens s.tokens = sp.stop + sumLens toks ∧
      s.tokens.IsSuffix toks ∧
      matchRun [] s.events = some [] ∧
      chainBound sp.stop (spans s.events) s.span.stop = true ∧
      (noBacktick toks = true → tileChain sp.stop (spans s.events) s.span.stop = true) ∧
      drain ⟨[], [], sp, toks⟩ = (drain ⟨[], [], s.span, s.tokens⟩).map (s.events ++ ·) := by
  obtain ⟨s, hps, hInvs, hpos, hsuf, hchain, htile⟩ :=
    pump_master ⟨[], [], sp, toks⟩ (Inv_init sp toks)
  have hpos' : s.span.stop + sumLens s.tokens = sp.stop + sumLens toks := hpos
  have hsuf' : s.tokens.IsSuffix toks := hsuf
  have hmr : matchRun [] s.events = some [] := hInvs.2.2 [] (List.nil_sublist _)
  have hcb : chainBound sp.stop (spans s.events) s.span.stop = true := by
    refine hchain sp.stop ?_
    simp [spans, chainBound]
  have htl : noBacktick toks = true →
      tileChain sp.stop (spans s.events) s.span.stop = true := by
    intro hnb
    refine htile hnb sp.stop ?_
    simp [spans, tileChain]
  have hOk0 : openersOk ⟨[], [], sp, toks⟩ := by
    intro x hx
    exact absurd hx (List.not_mem_nil x)
  have hkey : s.tokens.length < toks.length ∧ 1 ≤ s.events.length := by
    rw [pump_eq] at hps
    have hcond : ((⟨[], [], sp, toks⟩ : Parser).events.isEmpty
        || !(⟨[], [], sp, toks⟩ : Parser).openers.isEmpty) = true := rfl
    rw [if_pos hcond] at hps
    cases hpe : parse_event (⟨[], [], sp, toks⟩ : Parser) with
    | error e =>
      cases e
      exact (parse_event_no_error _ hOk0 hpe).elim
    | ok o =>
      cases o with
      | none =>
        have htk : toks = [] := parse_event_none_tokens _ hpe
        exact absurd htk hne
      | some pe =>
        rw [hpe] at hps
        have hps2 : pump { pe.1 with events := pe.1.events ++ [pe.2] } = .ok s := hps
        obtain ⟨hlt, _, _, _, _⟩ := parse_event_step _ pe.1 pe.2 hpe
        have hlt' : pe.1.tokens.length < toks.length := hlt
        have hm := pump_props _ s hps2
        have hq : ({ pe.1 with events := pe.1.events ++ [pe.2] } : Parser).events.length =
            pe.1.events.length + 1 := by simp
        have hst : s.tokens.length ≤ pe.1.tokens.length := hm.2.1
        have hse : pe.1.events.length + 1 ≤ s.events.length := by
          have h3 := hm.2.2.1
          rw [hq] at h3
          exact h3
        exact ⟨by omega, by omega⟩
  obtain ⟨hslt, hsev⟩ := hkey
  have hdisj := (pump_props _ s hps).2.2.2
  refine ⟨s, hps, hInvs, hslt, hpos', hsuf', hmr, hcb, htl, ?_⟩
  cases hse : s.events with
  | nil =>
    rw [hse] at hsev
    simp at hsev
  | cons e es =>
    have hn : next ⟨[], [], sp, toks⟩ = .ok ({ s with events := es }, some e) := by
      unfold next
      rw [hps]
      show (match s.events with
        | [] => Except.ok (s, (none : Option Event))
        | e :: es => Except.ok ({ s with events := es }, some e)) = _
      rw [hse]
    rw [drain_eq, hn]
    show (drain { s with events := es }).map (e :: ·) =
      (drain (⟨[], [], s.span, s.tokens⟩ : Parser)).map ((e :: es) ++ ·)
    rcases hdisj with hop | htk
    · have hrec : ({ s with events := es } : Parser) = ⟨[], es, s.span, s.tokens⟩ := by
        have h1 := congrArg (fun o => (⟨o, es, s.span, s.tokens⟩ : Parser)) hop
        exact h1
      rw [hrec, drain_pop_phase es s.span s.tokens]
      cases hd : drain (⟨[], [], s.span, s.tokens⟩ : Parser) with
      | error e0 => rfl
      | ok l => rfl
    · have hd1 : drain ({ s with events := es } : Parser) = .ok es := by
        have h2 : ({ s with events := es } : Parser) = ⟨s.openers, es, s.span, []⟩ :=
          congrArg (fun t => (⟨s.openers, es, s.span, t⟩ : Parser)) htk
        rw [h2]
        exact drain_exhausted es s.openers s.span
      rw [hd1, htk, drain_exhausted [] [] s.span]
      simp [Except.map]

end inline

namespace inline

theorem drain_master (toks : List lex.Token) (sp : Span) :
    ∃ out, drain ⟨[], [], sp, toks⟩ = .ok out ∧
      matchRun [] out = some [] ∧
      chainBound sp.stop (spans out) (sp.stop + sumLens toks) = true ∧
      (noBacktick toks = true →
        tileChain sp.stop (spans out) (sp.stop + sumLens toks) = true) := by
  by_cases hne : toks = []
  · subst hne
    refine ⟨[], drain_exhausted [] [] sp, rfl, ?_, ?_⟩
    · simp [spans, chainBound, sumLens]
    · intro h0
      simp [spans, tileChain, sumLens]
  · obtain ⟨s, hps, hInvs, hslt, hpos, hsuf, hmr, hcb, htl, hdec⟩ := drain_decomp sp toks hne
    have hlt : s.tokens.length < toks.length := hslt
    obtain ⟨out', hd', hmr', hcb', htl'⟩ := drain_master s.tokens s.span
    refine ⟨s.events ++ out', ?_, ?_, ?_, ?_⟩
    · rw [hdec, hd']
      rfl
    · rw [matchRun_append, hmr]
      exact hmr'
    · have h1 : spans (s.events ++ out') = spans s.events ++ spans out' := by simp [spans]
      rw [h1, ← hpos]
      exact chainBound_compose _ _ _ _ _ hcb hcb'
    · intro hnb
      have h1 : spans (s.events ++ out') = spans s.events ++ spans out' := by simp [spans]
      rw [h1, ← hpos]
      have hnb2 : noBacktick s.tokens = true := noBacktick_suffix _ _ hsuf hnb
      exact tileChain_compose _ _ _ _ _ (htl hnb) (htl' hnb2)
termination_by toks.length
decreasing_by
  exact hlt

/-- `parse` never panics and the full stream is nesting-matched, within bounds,
and (absent backticks) an exact tiling of the input. -/
theorem parse_master (toks : List lex.Token) :
    ∃ out, parse toks = .ok out ∧
      matchRun [] out = some [] ∧
      chainBound 0 (spans out) (sumLens toks) = true ∧
      (noBacktick toks = true → tileChain 0 (spans out) (sumLens toks) = true) := by
  obtain ⟨out, hd, hmr, hcb, htl⟩ := drain_master toks (Span.new 0 0)
  refine ⟨out, hd, hmr, ?_, ?_⟩
  · simpa [Span.new] using hcb
  · intro hnb
    simpa [Span.new] using htl hnb

end inline

namespace inline

theorem rposition_none {α : Type} (f : α → Bool) :
    ∀ (l : List α), rposition f l = none → ∀ a ∈ l, f a = false := by
  intro l
  induction l with
  | nil => intro h a ha; exact absurd ha (List.not_mem_nil a)
  | cons b l ih =>
    intro h a ha
    unfold rposition at h
    cases hr : rposition f l with
    | some j => rw [hr] at h; cases h
    | none =>
      rw [hr] at h
      by_cases hf : f b
      · rw [if_pos hf] at h; cases h
      · rcases List.mem_cons.mp ha with rfl | hmem
        · exact Bool.eq_false_iff.mpr hf
        · exact ih hr a hmem

theorem rposition_exists {α : Type} (f : α → Bool) (l : List α)
    (h : ∃ x ∈ l, f x = true) : ∃ o, rposition f l = some o := by
  cases hr : rposition f l with
  | some o => exact ⟨o, rfl⟩
  | none =>
    obtain ⟨x, hx, hf⟩ := h
    rw [rposition_none f l hr x hx] at hf
    cases hf

theorem rposition_rightmost {α : Type} (f : α → Bool) :
    ∀ (l : List α) (o : Nat), rposition f l = some o →
      ∀ j b, o < j → l[j]? = some b → f b = false := by
  intro l
  induction l with
  | nil => intro o h; simp [rposition] at h
  | cons a l ih =>
    intro o h j b hlt hj
    unfold rposition at h
    cases hr : rposition f l with
    | some i =>
      rw [hr] at h
      injection h with h2
      subst h2
      cases j with
      | zero => omega
      | succ j' =>
        rw [List.getElem?_cons_succ] at hj
        exact ih i hr j' b (by omega) hj
    | none =>
      rw [hr] at h
      by_cases hf : f a
      · rw [if_pos hf] at h
        injection h with h2
        subst h2
        cases j with
        | zero => omega
        | succ j' =>
          rw [List.getElem?_cons_succ] at hj
          exact rposition_none f l hr b (List.getElem?_mem hj)
      · rw [if_neg hf] at h
        cases h

theorem pairwise_snd_lt {l : List (Container × Nat)} (hp : l.Pairwise (fun x y => x.2 < y.2))
    {i j : Nat} {x y : Container × Nat} (hij : i < j)
    (hi : l[i]? = some x) (hj : l[j]? = some y) : x.2 < y.2 := by
  rcases List.getElem?_eq_some_iff.mp hi with ⟨hilt, hig⟩
  rcases List.getElem?_eq_some_iff.mp hj with ⟨hjlt, hjg⟩
  have := List.pairwise_iff_getElem.mp hp i j hilt hjlt hij
  rw [hig, hjg] at this
  exact this

end inline

namespace inline

/-- C3: when the inline resolver processes a `Close` or `Both` delimiter token of
container kind `c` and some unmatched opener of kind `c` is on the opener stack,
it closes the rightmost opener of kind `c` (no opener of kind `c` sits at a later
stack position): that opener's buffered `Enter` event is flipped to `Closed` in
place, an `Exit c` event is emitted, every opener stacked at or after that
position is removed from the opener stack, and the discarded intervening
openers' buffered `Enter` events remain `Unclosed` in the queue. -/
theorem resolver_closes_rightmost_opener (first : lex.Token) (p : Parser)
    (c : Container) (d : Dir)
    (hco : containerOf first.kind = some (c, d))
    (hd : d = Dir.Close ∨ d = Dir.Both)
    (hex : ∃ x ∈ p.openers, x.1 = c)
    (hOk : openersOk p) (hMono : openersMono p) :
    ∃ o i sp0 q,
      p.openers[o]? = some (c, i) ∧
      (∀ j b, o < j → p.openers[j]? = some b → b.1 ≠ c) ∧
      parse_container first p = some (.ok (q, ⟨.Exit c, p.span⟩)) ∧
      p.events[i]? = some ⟨.Enter c .Unclosed, sp0⟩ ∧
      q.events = p.events.set i ⟨.Enter c .Closed, sp0⟩ ∧
      q.openers = p.openers.take o ∧
      (∀ j b, o < j → p.openers[j]? = some b →
        ∃ spb, q.events[b.2]? = some ⟨.Enter b.1 .Unclosed, spb⟩) := by
  obtain ⟨o, hrp⟩ := rposition_exists (fun x => decide (x.1 = c)) p.openers (by
    obtain ⟨x, hx, hxc⟩ := hex
    exact ⟨x, hx, by simp [hxc]⟩)
  obtain ⟨a, ha, hfa⟩ := rposition_get _ _ _ hrp
  have hac : a.1 = c := by simpa using hfa
  have hmem : a ∈ p.openers := List.getElem?_mem ha
  obtain ⟨sp0, hsp0⟩ := hOk a hmem
  have ha' : p.openers[o]? = some (c, a.2) := by rw [ha, ← hac]
  have hsp0' : p.events[a.2]? = some ⟨.Enter c .Unclosed, sp0⟩ := by rw [hsp0, hac]
  have hpc := parse_container_eq_close first p c d o a ⟨.Enter c .Unclosed, sp0⟩ c .Unclosed
    hco hd hrp ha hsp0' rfl
  refine ⟨o, a.2, sp0, _, ha', ?_, hpc, hsp0', rfl, rfl, ?_⟩
  · intro j b hlt hj
    have hfb := rposition_rightmost (fun x => decide (x.1 = c)) p.openers o hrp j b hlt hj
    simpa using hfb
  · intro j b hlt hj
    have hbmem : b ∈ p.openers := List.getElem?_mem hj
    obtain ⟨spb, hspb⟩ := hOk b hbmem
    have hne : a.2 ≠ b.2 := Nat.ne_of_lt (pairwise_snd_lt hMono hlt ha hj)
    refine ⟨spb, ?_⟩
    show (p.events.set a.2 ⟨.Enter c .Closed, sp0⟩)[b.2]? = _
    rw [List.getElem?_set, if_neg hne]
    exact hspb

theorem resolver_closes_rightmost_opener_witness :
    ∃ o i sp0 q,
      ([((Container.Strong : Container), 0)] : List (Container × Nat))[o]? =
        some (Container.Strong, i) ∧
      (∀ j b, o < j →
        ([((Container.Strong : Container), 0)] : List (Container × Nat))[j]? = some b →
        b.1 ≠ Container.Strong) ∧
      parse_container ⟨lex.Kind.Sym lex.Symbol.Asterisk, 1⟩
          ⟨[(Container.Strong, 0)], [⟨.Enter Container.Strong .Unclosed, ⟨0, 1⟩⟩], ⟨1, 2⟩, []⟩ =
        some (.ok (q, ⟨.Exit Container.Strong, ⟨1, 2⟩⟩)) ∧
      ([⟨.Enter Container.Strong .Unclosed, ⟨0, 1⟩⟩] : List Event)[i]? =
        some ⟨.Enter Container.Strong .Unclosed, sp0⟩ ∧
      q.events = ([⟨.Enter Container.Strong .Unclosed, ⟨0, 1⟩⟩] : List Event).set i
        ⟨.Enter Container.Strong .Closed, sp0⟩ ∧
      q.openers = ([(Container.Strong, 0)] : List (Container × Nat)).take o ∧
      (∀ j b, o < j →
        ([((Container.Strong : Container), 0)] : List (Container × Nat))[j]? = some b →
        ∃ spb, q.events[b.2]? = some ⟨.Enter b.1 .Unclosed, spb⟩) :=
  resolver_closes_rightmost_opener ⟨lex.Kind.Sym lex.Symbol.Asterisk, 1⟩
    ⟨[(Container.Strong, 0)], [⟨.Enter Container.Strong .Unclosed, ⟨0, 1⟩⟩], ⟨1, 2⟩, []⟩
    Container.Strong Dir.Both rfl (Or.inr rfl)
    ⟨(Container.Strong, 0), by simp, rfl⟩
    (by
      intro x hx
      simp at hx
      subst hx
      exact ⟨⟨0, 1⟩, rfl⟩)
    (by simp [openersMono])

end inline

namespace inline

/-- C1 (corrected): the inline resolver never fails and concatenating the spans
of its events in order is contiguous with no overlaps and stays within the
input; it reconstructs the whole input length exactly whenever the input holds
no backtick run.  When backtick runs occur, the verbatim/math node span covers
only the interior (delimiters excluded), so the exact covering claimed for all
inputs fails — see the counterexample. -/
theorem event_spans_cover_input (toks : List lex.Token) :
    ∃ out, parse toks = .ok out ∧
      chainBound 0 (spans out) (sumLens toks) = true ∧
      (noBacktick toks = true → tileChain 0 (spans out) (sumLens toks) = true) := by
  obtain ⟨out, hd, _, hcb, htl⟩ := parse_master toks
  exact ⟨out, hd, hcb, htl⟩

/-- C1 counterexample: on the token stream of `` `abc` `` (backtick run, 3 bytes
of text, backtick run) the resolver emits a single `Verbatim` node spanning only
bytes 1 to 4, so the spans do not tile the 5-byte input: the delimiter bytes are
not covered by any event span. -/
theorem event_spans_cover_input_cex :
    parse [⟨.Seq .Backtick, 1⟩, ⟨.Text, 3⟩, ⟨.Seq .Backtick, 1⟩] =
      .ok [⟨.Node .Verbatim, ⟨1, 4⟩⟩] ∧
    tileChain 0 (spans [⟨.Node .Verbatim, ⟨1, 4⟩⟩])
      (sumLens [⟨.Seq .Backtick, 1⟩, ⟨.Text, 3⟩, ⟨.Seq .Backtick, 1⟩]) = false := by
  constructor
  · simp [parse, drain_eq, next, pump_eq, parse_event, eat, reset_span, parse_verbatim,
      verbLoop, parse_container, parse_atom, containerOf, node, Span.empty_at, Span.extend,
      Span.new, peek, Except.map, closes]
  · rfl

end inline

namespace inline

/-- C4 (code bug): a pure `Close`-direction delimiter token whose container kind
has no unmatched opener does NOT decay to a plain `Str` node.  The
`unwrap_or_else` branch of `parse_container` treats it like an opener: it emits
`Enter(Span, Unclosed)` and pushes an opener entry, so the stream for `"]abc"`
starts with an `Enter` instead of a `Str` covering the token, and a later `]`
even closes this phantom opener, yielding `Enter(Span, Closed) … Exit(Span)`
for `"]a]"`. -/
theorem pure_close_without_opener_behavior :
    (∀ (p : Parser),
      rposition (fun x => decide (x.1 = Container.Span)) p.openers = none →
      parse_container ⟨lex.Kind.Close .Bracket, 1⟩ p =
        some (.ok ({ p with openers := p.openers ++ [(Container.Span, p.events.length)] },
                   ⟨.Enter Container.Span .Unclosed, p.span⟩))) ∧
    parse [⟨.Close .Bracket, 1⟩, ⟨.Text, 3⟩] =
      .ok [⟨.Enter Container.Span .Unclosed, ⟨0, 1⟩⟩, ⟨.Node .Str, ⟨1, 4⟩⟩] ∧
    parse [⟨.Close .Bracket, 1⟩, ⟨.Text, 1⟩, ⟨.Close .Bracket, 1⟩] =
      .ok [⟨.Enter Container.Span .Closed, ⟨0, 1⟩⟩, ⟨.Node .Str, ⟨1, 2⟩⟩,
           ⟨.Exit Container.Span, ⟨2, 3⟩⟩] := by
  refine ⟨?_, ?_, ?_⟩
  · intro p hrp
    exact parse_container_eq_open ⟨lex.Kind.Close .Bracket, 1⟩ p Container.Span Dir.Close
      rfl hrp
  · simp [parse, drain_eq, next, pump_eq, parse_event, eat, reset_span, parse_verbatim,
      verbLoop, parse_container, parse_atom, containerOf, node, Span.empty_at, Span.extend,
      Span.new, peek, Except.map, closes, rposition]
  · simp [parse, drain_eq, next, pump_eq, parse_event, eat, reset_span, parse_verbatim,
      verbLoop, parse_container, parse_atom, containerOf, node, Span.empty_at, Span.extend,
      Span.new, peek, Except.map, closes, rposition]

end inline

namespace inline

/-- C5: for every input the resolver's complete output stream is properly
matched — reading left to right, every `Enter(_, Closed)` is closed by a
matching, properly nested `Exit` later in the stream and every `Exit` closes an
`Enter(_, Closed)`, while `Enter(_, Unclosed)` events are matched by no `Exit` —
so each `Enter` carries its final state when released; and the buffering loop
only ever stops (releasing events from the queue front to the consumer) in a
state where no opener remains outstanding or the input is exhausted, so a
released event's state can no longer change. -/
theorem enter_state_final_on_release (toks : List lex.Token) :
    (∃ out, parse toks = .ok out ∧ matchRun [] out = some []) ∧
    (∀ p s, pump p = .ok s → s.openers = [] ∨ s.tokens = []) := by
  constructor
  · obtain ⟨out, hd, hmr, _, _⟩ := parse_master toks
    exact ⟨out, hd, hmr⟩
  · intro p s h
    exact (pump_props p s h).2.2.2

/-- C10: the resolver's state invariant — every opener-stack entry `(c, i)`
points in bounds of the event queue at an `Enter(c, Unclosed)` event — holds
for a fresh parser on any input, is preserved by the buffering loop, and as a
consequence the resolver never reaches `parse_container`'s panic branch nor an
out-of-bounds queue access: parsing any token stream returns a result. -/
theorem opener_stack_invariant :
    (∀ (sp : Span) (toks : List lex.Token), Inv ⟨[], [], sp, toks⟩) ∧
    (∀ p s, Inv p → pump p = .ok s → Inv s) ∧
    (∀ toks, ∃ out, parse toks = .ok out) := by
  refine ⟨Inv_init, ?_, ?_⟩
  · intro p s hInv h
    obtain ⟨s', hs', hInv', _⟩ := pump_master p hInv
    rw [h] at hs'
    injection hs' with h2
    rw [h2]
    exact hInv'
  · intro toks
    obtain ⟨out, hd, _⟩ := parse_master toks
    exact ⟨out, hd⟩

end inline

namespace inline

/-- C6: a verbatim opening backtick run of length `n` scans forward consuming
every token raw — the scan stops only at a token satisfying `closes n`, i.e. a
backtick run of exactly length `n` — and produces a single `Verbatim` node
whose span covers only the interior between the delimiter runs: it starts right
after the opener and its length is the total length of the consumed interior
tokens, excluding the closing run (when no equal-length run occurs the interior
is all remaining input).  Every consumed interior token, including backtick
runs of a different length, fails the closing test. -/
theorem verbatim_closed_by_equal_run (n : Nat) (p : Parser) :
    parse_verbatim ⟨lex.Kind.Seq .Backtick, n⟩ p =
      some ({ p with
                tokens := (p.tokens.dropWhile (fun t => !closes n t)).tail,
                span := ⟨p.span.start,
                         p.span.stop + sumLens (p.tokens.takeWhile (fun t => !closes n t)) +
                           (((p.tokens.dropWhile (fun t => !closes n t)).head?.map
                               lex.Token.len).getD 0)⟩ },
            ⟨.Node .Verbatim,
             ⟨p.span.stop,
              p.span.stop + sumLens (p.tokens.takeWhile (fun t => !closes n t))⟩⟩) ∧
    (∀ t ∈ p.tokens.takeWhile (fun t => !closes n t), closes n t = false) ∧
    (∀ t, closes n t = (decide (t.kind = lex.Kind.Seq .Backtick) && decide (t.len = n))) := by
  refine ⟨parse_verbatim_backtick n p, ?_, ?_⟩
  · intro t ht
    have := List.mem_takeWhile_imp ht
    simpa using this
  · intro t
    simp [closes]

/-- C7: a dollar run immediately followed by a backtick run produces a single
math node over the verbatim interior — `InlineMath` for a dollar run of length
1, `DisplayMath` for length 2 — while a dollar run of length 3 or more, or one
not followed by a backtick run, is not math: `parse_verbatim` yields `none` and
the token falls through to normal tokenizing. -/
theorem dollar_backtick_math :
    (∀ (m : Nat) (op : List (Container × Nat)) (evs : List Event) (sp : Span)
        (ts : List lex.Token),
      parse_verbatim ⟨lex.Kind.Seq .Dollar, 1⟩
          ⟨op, evs, sp, ⟨lex.Kind.Seq .Backtick, m⟩ :: ts⟩ =
        some (⟨op, evs,
               ⟨sp.start, sp.stop + m + sumLens (ts.takeWhile (fun t => !closes m t)) +
                 (((ts.dropWhile (fun t => !closes m t)).head?.map lex.Token.len).getD 0)⟩,
               (ts.dropWhile (fun t => !closes m t)).tail⟩,
              ⟨.Node Node.InlineMath,
               ⟨sp.stop + m, sp.stop + m + sumLens (ts.takeWhile (fun t => !closes m t))⟩⟩)) ∧
    (∀ (m : Nat) (op : List (Container × Nat)) (evs : List Event) (sp : Span)
        (ts : List lex.Token),
      parse_verbatim ⟨lex.Kind.Seq .Dollar, 2⟩
          ⟨op, evs, sp, ⟨lex.Kind.Seq .Backtick, m⟩ :: ts⟩ =
        some (⟨op, evs,
               ⟨sp.start, sp.stop + m + sumLens (ts.takeWhile (fun t => !closes m t)) +
                 (((ts.dropWhile (fun t => !closes m t)).head?.map lex.Token.len).getD 0)⟩,
               (ts.dropWhile (fun t => !closes m t)).tail⟩,
              ⟨.Node Node.DisplayMath,
               ⟨sp.stop + m, sp.stop + m + sumLens (ts.takeWhile (fun t => !closes m t))⟩⟩)) ∧
    (∀ (n : Nat) (p : Parser), 3 ≤ n →
      parse_verbatim ⟨lex.Kind.Seq .Dollar, n⟩ p = none) ∧
    (∀ (n : Nat) (p : Parser),
      (∀ tk ∈ p.tokens.head?, tk.kind ≠ lex.Kind.Seq .Backtick) →
      parse_verbatim ⟨lex.Kind.Seq .Dollar, n⟩ p = none) := by
  refine ⟨?_, ?_, ?_, parse_verbatim_dollar_nopeek⟩
  · intro m op evs sp ts
    have h := parse_verbatim_dollar_math 1 m (by omega) op evs sp ts
    simpa using h
  · intro m op evs sp ts
    have h := parse_verbatim_dollar_math 2 m (by omega) op evs sp ts
    simpa using h
  · intro n p hn
    obtain ⟨k, rfl⟩ : ∃ k, n = k + 3 := ⟨n - 3, by omega⟩
    exact parse_verbatim_dollar_long k p

end inline

namespace tree

/-- `NodeIndex` (src/tree.rs): a `NonZeroUsize`; `new i` stores `i + 1` and
`index` recovers `i`.  (`new`'s `assert_ne!(i, usize::MAX)` cannot fire over
`Nat`.) -/
structure NodeIndex where
  v : Nat
deriving DecidableEq

/-- `NodeIndex::new`. -/
def NodeIndex.new (i : Nat) : NodeIndex := ⟨i + 1⟩

/-- `NodeIndex::root`. -/
def NodeIndex.root : NodeIndex := NodeIndex.new 0

/-- `NodeIndex::index`. -/
def NodeIndex.index (n : NodeIndex) : Nat := n.v - 1

/-- `enum NodeKind` (src/tree.rs). -/
inductive NodeKind (C A : Type) where
  | Root
  | Container (c : C) (child : Option NodeIndex)
  | Atom (a : A)
  | Inline

/-- `struct Node` (src/tree.rs). -/
structure Node (C A : Type) where
  span : Span
  kind : NodeKind C A
  next : Option NodeIndex

/-- `enum EventKind` (src/tree.rs). -/
inductive EventKind (C A : Type) where
  | Enter (c : C)
  | Inline
  | Exit (c : C)
  | Atom (a : A)

/-- `struct Event` (src/tree.rs). -/
structure Event (C A : Type) where
  kind : EventKind C A
  span : Span

/-- `struct Tree` (src/tree.rs): the shared node arena, the stack of entered
containers, and the cursor head.  The branch `Vec` is a stack; it is modelled
with its top at the HEAD of the list (Rust pushes/pops at the `Vec`'s tail). -/
structure Tree (C A : Type) where
  nodes : List (Node C A)
  branch : List NodeIndex
  head : Option NodeIndex

/-- `impl Iterator for Tree::next` (src/tree.rs): with a head, a container node
emits `Enter` and descends to its child (pushing the node on the branch stack)
while atom/inline nodes emit their event and advance to `next`; with no head,
pop the branch stack and emit that container's `Exit`, resuming at its `next`.
The `error` covers the source's `unreachable!()` on a `Root` node, the
`panic!()` on popping a non-container, and the arena indexing panics. -/
def next {C A : Type} (t : Tree C A) : Except Unit (Tree C A × Option (Event C A)) :=
  match t.head with
  | some head =>
    match t.nodes[head.index]? with
    | none => .error ()
    | some n =>
      match n.kind with
      | .Root => .error ()
      | .Container c child =>
        .ok ({ t with branch := head :: t.branch, head := child }, some ⟨.Enter c, n.span⟩)
      | .Atom a => .ok ({ t with head := n.next }, some ⟨.Atom a, n.span⟩)
      | .Inline => .ok ({ t with head := n.next }, some ⟨.Inline, n.span⟩)
  | none =>
    match t.branch with
    | block :: rest =>
      match t.nodes[block.index]? with
      | none => .error ()
      | some n =>
        match n.kind with
        | .Container c _ =>
          .ok ({ t with branch := rest, head := n.next }, some ⟨.Exit c, n.span⟩)
        | _ => .error ()
    | [] => .ok (t, none)

/-- The cursor `t` drains to exactly the event list `l`: repeated `next` calls
yield the events of `l` in order and then stop. -/
inductive Drains {C A : Type} : Tree C A → List (Event C A) → Prop where
  | nil (t : Tree C A) (hh : t.head = none) (hb : t.branch = []) : Drains t []
  | step (t t' : Tree C A) (e : Event C A) (l : List (Event C A))
      (hn : next t = .ok (t', some e)) (hd : Drains t' l) : Drains t (e :: l)

/-- `Tree::take_branch` (src/tree.rs): take the head, pop the branch stack into
the head, and — if a node was popped — jump the original cursor to that node's
`next`; the returned tree continues on the branch from the old head with an
empty stack.  The `error` is the arena indexing panic. -/
def take_branch {C A : Type} (t : Tree C A) : Except Unit (Tree C A × Tree C A) :=
  match t.branch with
  | [] => .ok ({ t with head := none, branch := [] },
               { nodes := t.nodes, branch := [], head := t.head })
  | b :: rest =>
    match t.nodes[b.index]? with
    | none => .error ()
    | some n =>
      .ok ({ t with branch := rest, head := n.next },
           { nodes := t.nodes, branch := [], head := t.head })

end tree


namespace tree

theorem next_eq_oob {C A : Type} (ns : List (Node C A)) (br : List NodeIndex)
    (head : NodeIndex) (hg : ns[head.index]? = none) :
    next ⟨ns, br, some head⟩ = .error () := by
  simp [next, hg]

theorem next_eq_root {C A : Type} (ns : List (Node C A)) (br : List NodeIndex)
    (head : NodeIndex) (n : Node C A) (hg : ns[head.index]? = some n)
    (hk : n.kind = .Root) : next ⟨ns, br, some head⟩ = .error () := by
  simp [next, hg, hk]

theorem next_eq_enter {C A : Type} (ns : List (Node C A)) (br : List NodeIndex)
    (head : NodeIndex) (n : Node C A) (c : C) (child : Option NodeIndex)
    (hg : ns[head.index]? = some n) (hk : n.kind = .Container c child) :
    next ⟨ns, br, some head⟩ =
      .ok (⟨ns, head :: br, child⟩, some ⟨.Enter c, n.span⟩) := by
  simp [next, hg, hk]

theorem next_eq_atom {C A : Type} (ns : List (Node C A)) (br : List NodeIndex)
    (head : NodeIndex) (n : Node C A) (a : A)
    (hg : ns[head.index]? = some n) (hk : n.kind = .Atom a) :
    next ⟨ns, br, some head⟩ = .ok (⟨ns, br, n.next⟩, some ⟨.Atom a, n.span⟩) := by
  simp [next, hg, hk]

theorem next_eq_inl {C A : Type} (ns : List (Node C A)) (br : List NodeIndex)
    (head : NodeIndex) (n : Node C A)
    (hg : ns[head.index]? = some n) (hk : n.kind = .Inline) :
    next ⟨ns, br, some head⟩ = .ok (⟨ns, br, n.next⟩, some ⟨.Inline, n.span⟩) := by
  simp [next, hg, hk]

theorem next_eq_done {C A : Type} (ns : List (Node C A)) :
    next (⟨ns, [], none⟩ : Tree C A) = .ok (⟨ns, [], none⟩, none) := rfl

theorem next_eq_pop_oob {C A : Type} (ns : List (Node C A)) (b : NodeIndex)
    (br : List NodeIndex) (hg : ns[b.index]? = none) :
    next ⟨ns, b :: br, none⟩ = .error () := by
  simp [next, hg]

theorem next_eq_exit {C A : Type} (ns : List (Node C A)) (b : NodeIndex)
    (br : List NodeIndex) (n : Node C A) (c : C) (child : Option NodeIndex)
    (hg : ns[b.index]? = some n) (hk : n.kind = .Container c child) :
    next ⟨ns, b :: br, none⟩ = .ok (⟨ns, br, n.next⟩, some ⟨.Exit c, n.span⟩) := by
  simp [next, hg, hk]

theorem next_eq_pop_bad {C A : Type} (ns : List (Node C A)) (b : NodeIndex)
    (br : List NodeIndex) (n : Node C A) (hg : ns[b.index]? = some n)
    (hk : ∀ c child, n.kind ≠ .Container c child) :
    next ⟨ns, b :: br, none⟩ = .error () := by
  cases hkk : n.kind with
  | Container c child => exact absurd hkk (hk c child)
  | Root => simp [next, hg, hkk]
  | Atom a => simp [next, hg, hkk]
  | Inline => simp [next, hg, hkk]

end tree

namespace tree

theorem next_shape {C A : Type} : ∀ (t t' : Tree C A) (e : Event C A),
    next t = .ok (t', some e) →
    t'.nodes = t.nodes ∧
    ∀ bs : List NodeIndex,
      next ⟨t.nodes, t.branch ++ bs, t.head⟩ =
        .ok (⟨t.nodes, t'.branch ++ bs, t'.head⟩, some e) := by
  intro t t' e hn
  obtain ⟨ns0, br0, hd0⟩ := t
  cases hd0 with
  | some head =>
    cases hg : ns0[head.index]? with
    | none =>
      rw [next_eq_oob ns0 br0 head hg] at hn
      cases hn
    | some n =>
      cases hk : n.kind with
      | Root =>
        rw [next_eq_root ns0 br0 head n hg hk] at hn
        cases hn
      | Container c child =>
        rw [next_eq_enter ns0 br0 head n c child hg hk] at hn
        injection hn with hn2
        obtain ⟨ht', he⟩ := Prod.mk.inj hn2
        subst ht'
        injection he with he2
        subst he2
        refine ⟨rfl, ?_⟩
        intro bs
        rw [next_eq_enter ns0 (br0 ++ bs) head n c child hg hk]
        rfl
      | Atom a =>
        rw [next_eq_atom ns0 br0 head n a hg hk] at hn
        injection hn with hn2
        obtain ⟨ht', he⟩ := Prod.mk.inj hn2
        subst ht'
        injection he with he2
        subst he2
        refine ⟨rfl, ?_⟩
        intro bs
        rw [next_eq_atom ns0 (br0 ++ bs) head n a hg hk]
      | Inline =>
        rw [next_eq_inl ns0 br0 head n hg hk] at hn
        injection hn with hn2
        obtain ⟨ht', he⟩ := Prod.mk.inj hn2
        subst ht'
        injection he with he2
        subst he2
        refine ⟨rfl, ?_⟩
        intro bs
        rw [next_eq_inl ns0 (br0 ++ bs) head n hg hk]
  | none =>
    cases br0 with
    | nil =>
      rw [next_eq_done ns0] at hn
      injection hn with hn2
      obtain ⟨_, he⟩ := Prod.mk.inj hn2
      cases he
    | cons b rest =>
      cases hg : ns0[b.index]? with
      | none =>
        rw [next_eq_pop_oob ns0 b rest hg] at hn
        cases hn
      | some n =>
        cases hk : n.kind with
        | Container c child =>
          rw [next_eq_exit ns0 b rest n c child hg hk] at hn
          injection hn with hn2
          obtain ⟨ht', he⟩ := Prod.mk.inj hn2
          subst ht'
          injection he with he2
          subst he2
          refine ⟨rfl, ?_⟩
          intro bs
          rw [show (b :: rest) ++ bs = b :: (rest ++ bs) from rfl]
          rw [next_eq_exit ns0 b (rest ++ bs) n c child hg hk]
        | Root =>
          rw [next_eq_pop_bad ns0 b rest n hg
            (by intro c child hbad; rw [hk] at hbad; cases hbad)] at hn
          cases hn
        | Atom a =>
          rw [next_eq_pop_bad ns0 b rest n hg
            (by intro c child hbad; rw [hk] at hbad; cases hbad)] at hn
          cases hn
        | Inline =>
          rw [next_eq_pop_bad ns0 b rest n hg
            (by intro c child hbad; rw [hk] at hbad; cases hbad)] at hn
          cases hn

theorem Drains_extend {C A : Type} (ns : List (Node C A)) (bs : List NodeIndex)
    (l2 : List (Event C A)) (hbs : Drains ⟨ns, bs, none⟩ l2) :
    ∀ (t : Tree C A) (l : List (Event C A)), Drains t l → t.nodes = ns →
      Drains ⟨ns, t.branch ++ bs, t.head⟩ (l ++ l2) := by
  intro t l hd
  induction hd with
  | nil t hh hb =>
    intro hns
    rw [hh, hb]
    simpa using hbs
  | step t t' e l hn hdrains ih =>
    intro hns
    obtain ⟨hnodes, hext⟩ := next_shape t t' e hn
    have hns' : t'.nodes = ns := by rw [hnodes, hns]
    have hstep := hext bs
    rw [hns] at hstep
    refine Drains.step _ ⟨ns, t'.branch ++ bs, t'.head⟩ e _ hstep (ih hns')

end tree

namespace tree

/-- C8 (corrected): splitting a cursor with `take_branch` is NOT a lossless
partition of the unsplit depth-first event sequence — the `Exit` event of the
split container is dropped.  Corrected statement: if the branch stack tops a
container node `n` (kind `Container c _`) and `take_branch` returns the
advanced original cursor `t'` and the branch cursor `br`, then whenever `br`
drains to `l2` and `t'` drains to `l1`, the unsplit cursor drains to exactly
`l2 ++ ⟨Exit c, n.span⟩ :: l1`: the two traversals cover the whole sequence
except for that one `Exit` event, which neither cursor ever produces. -/
theorem take_branch_partition {C A : Type} (ns : List (Node C A)) (b : NodeIndex)
    (bs : List NodeIndex) (h : Option NodeIndex) (t' br : Tree C A)
    (n : Node C A) (c : C) (child : Option NodeIndex) (l1 l2 : List (Event C A))
    (hnb : ns[b.index]? = some n) (hkind : n.kind = .Container c child)
    (htb : take_branch ⟨ns, b :: bs, h⟩ = .ok (t', br))
    (ht' : Drains t' l1) (hbr : Drains br l2) :
    Drains ⟨ns, b :: bs, h⟩ (l2 ++ ⟨.Exit c, n.span⟩ :: l1) := by
  have htb2 : take_branch (⟨ns, b :: bs, h⟩ : Tree C A) =
      .ok (⟨ns, bs, n.next⟩, ⟨ns, [], h⟩) := by
    show (match ns[b.index]? with
      | none => (Except.error () : Except Unit (Tree C A × Tree C A))
      | some n => .ok (⟨ns, bs, n.next⟩, ⟨ns, [], h⟩)) = _
    rw [hnb]
  rw [htb2] at htb
  injection htb with htb3
  obtain ⟨ht'eq, hbreq⟩ := Prod.mk.inj htb3
  subst ht'eq
  subst hbreq
  have hstep : next (⟨ns, b :: bs, none⟩ : Tree C A) =
      .ok (⟨ns, bs, n.next⟩, some ⟨.Exit c, n.span⟩) :=
    next_eq_exit ns b bs n c child hnb hkind
  have h2 : Drains (⟨ns, b :: bs, none⟩ : Tree C A) (⟨.Exit c, n.span⟩ :: l1) :=
    Drains.step _ _ _ _ hstep ht'
  have h3 := Drains_extend ns (b :: bs) (⟨.Exit c, n.span⟩ :: l1) h2
    ⟨ns, [], h⟩ l2 hbr rfl
  simpa using h3

/-- C8 witness: a three-node arena (root, one container with span `0-5` holding
one atom).  With the cursor just past the atom (branch stack `[container]`,
head exhausted), `take_branch` yields two cursors that both drain to `[]`,
while the unsplit cursor drains to the container's `Exit` event. -/
theorem take_branch_partition_witness :
    Drains (⟨[⟨⟨0, 0⟩, .Root, some (NodeIndex.new 1)⟩,
              ⟨⟨0, 5⟩, .Container 1 (some (NodeIndex.new 2)), none⟩,
              ⟨⟨1, 2⟩, .Atom 7, none⟩],
            [NodeIndex.new 1], none⟩ : Tree Nat Nat)
      ([] ++ ⟨.Exit 1, ⟨0, 5⟩⟩ :: []) :=
  take_branch_partition
    [⟨⟨0, 0⟩, .Root, some (NodeIndex.new 1)⟩,
     ⟨⟨0, 5⟩, .Container 1 (some (NodeIndex.new 2)), none⟩,
     ⟨⟨1, 2⟩, .Atom 7, none⟩]
    (NodeIndex.new 1) [] none
    ⟨[⟨⟨0, 0⟩, .Root, some (NodeIndex.new 1)⟩,
      ⟨⟨0, 5⟩, .Container 1 (some (NodeIndex.new 2)), none⟩,
      ⟨⟨1, 2⟩, .Atom 7, none⟩], [], none⟩
    ⟨[⟨⟨0, 0⟩, .Root, some (NodeIndex.new 1)⟩,
      ⟨⟨0, 5⟩, .Container 1 (some (NodeIndex.new 2)), none⟩,
      ⟨⟨1, 2⟩, .Atom 7, none⟩], [], none⟩
    ⟨⟨0, 5⟩, .Container 1 (some (NodeIndex.new 2)), none⟩ 1 (some (NodeIndex.new 2))
    [] [] rfl rfl rfl (Drains.nil _ rfl rfl) (Drains.nil _ rfl rfl)

/-- C8 counterexample to the original claim: in the same three-node arena the
post-split cursors drain to `[]` and `[]`, but the unsplit cursor drains to the
one-event sequence holding the container's `Exit`; the concatenation of the two
split traversals is not a permutation of the unsplit traversal. -/
theorem take_branch_partition_cex :
    take_branch (⟨[⟨⟨0, 0⟩, .Root, some (NodeIndex.new 1)⟩,
                   ⟨⟨0, 5⟩, .Container 1 (some (NodeIndex.new 2)), none⟩,
                   ⟨⟨1, 2⟩, .Atom 7, none⟩],
                 [NodeIndex.new 1], none⟩ : Tree Nat Nat) =
      .ok (⟨[⟨⟨0, 0⟩, .Root, some (NodeIndex.new 1)⟩,
             ⟨⟨0, 5⟩, .Container 1 (some (NodeIndex.new 2)), none⟩,
             ⟨⟨1, 2⟩, .Atom 7, none⟩], [], none⟩,
           ⟨[⟨⟨0, 0⟩, .Root, some (NodeIndex.new 1)⟩,
             ⟨⟨0, 5⟩, .Container 1 (some (NodeIndex.new 2)), none⟩,
             ⟨⟨1, 2⟩, .Atom 7, none⟩], [], none⟩) ∧
    Drains (⟨[⟨⟨0, 0⟩, .Root, some (NodeIndex.new 1)⟩,
              ⟨⟨0, 5⟩, .Container 1 (some (NodeIndex.new 2)), none⟩,
              ⟨⟨1, 2⟩, .Atom 7, none⟩], [], none⟩ : Tree Nat Nat) [] ∧
    Drains (⟨[⟨⟨0, 0⟩, .Root, some (NodeIndex.new 1)⟩,
              ⟨⟨0, 5⟩, .Container 1 (some (NodeIndex.new 2)), none⟩,
              ⟨⟨1, 2⟩, .Atom 7, none⟩],
            [NodeIndex.new 1], none⟩ : Tree Nat Nat) [⟨.Exit 1, ⟨0, 5⟩⟩] ∧
    ¬ (([] ++ []) : List (Event Nat Nat)).Perm [⟨.Exit 1, ⟨0, 5⟩⟩] := by
  refine ⟨rfl, Drains.nil _ rfl rfl, ?_, ?_⟩
  · refine Drains.step _ ⟨[⟨⟨0, 0⟩, .Root, some (NodeIndex.new 1)⟩,
      ⟨⟨0, 5⟩, .Container 1 (some (NodeIndex.new 2)), none⟩,
      ⟨⟨1, 2⟩, .Atom 7, none⟩], [], none⟩ _ _ rfl (Drains.nil _ rfl rfl)
  · intro hperm
    have := hperm.length_eq
    simp at this

end tree

namespace tree

/-- `Tree::take_inlines` (src/tree.rs): `self.head.take()` clears the cursor
head; the returned lazy iterator then walks the sibling chain from the old
head.  The pair is (mutated tree, start of the walk). -/
def take_inlines {C A : Type} (t : Tree C A) : Tree C A × Option NodeIndex :=
  ({ t with head := none }, t.head)

/-- Consuming `take_inlines`' iterator, fueled: each step looks up the head
node, panics (`error`) unless its kind is `Inline` (the source's
`assert!(matches!(n.kind, NodeKind::Inline))`) or the index is out of bounds,
yields the node's span and follows its `next` pointer; `none` means the fuel
ran out. -/
def inlineWalk {C A : Type} (ns : List (Node C A)) :
    Option NodeIndex → Nat → Option (Except Unit (List Span))
  | _, 0 => none
  | none, _ + 1 => some (.ok [])
  | some h, fuel + 1 =>
    match ns[h.index]? with
    | none => some (.error ())
    | some n =>
      match n.kind with
      | .Inline =>
        match inlineWalk ns n.next fuel with
        | none => none
        | some (.error e) => some (.error e)
        | some (.ok spl) => some (.ok (n.span :: spl))
      | _ => some (.error ())

/-- The maximal-run contract of `take_inlines`: from this head the arena holds
a finite chain of `Inline` nodes (linked by `next`, ending at `none`) with
these spans, in order. -/
inductive InlineChain {C A : Type} (ns : List (Node C A)) :
    Option NodeIndex → List Span → Prop where
  | nil : InlineChain ns none []
  | cons (h : NodeIndex) (n : Node C A) (l : List Span)
      (hg : ns[h.index]? = some n) (hk : n.kind = .Inline)
      (hrest : InlineChain ns n.next l) : InlineChain ns (some h) (n.span :: l)

end tree

namespace tree

theorem inlineWalk_eq_fuelout {C A : Type} (ns : List (Node C A)) (hd : Option NodeIndex) :
    inlineWalk ns hd 0 = none := by
  cases hd <;> rfl

theorem inlineWalk_eq_nil {C A : Type} (ns : List (Node C A)) (fuel : Nat) :
    inlineWalk ns none (fuel + 1) = some (.ok []) := rfl

theorem inlineWalk_eq_oob {C A : Type} (ns : List (Node C A)) (h : NodeIndex) (fuel : Nat)
    (hg : ns[h.index]? = none) :
    inlineWalk ns (some h) (fuel + 1) = some (.error ()) := by
  simp [inlineWalk, hg]

theorem inlineWalk_eq_bad {C A : Type} (ns : List (Node C A)) (h : NodeIndex)
    (n : Node C A) (fuel : Nat) (hg : ns[h.index]? = some n)
    (hk : n.kind ≠ .Inline) :
    inlineWalk ns (some h) (fuel + 1) = some (.error ()) := by
  cases hkk : n.kind with
  | Inline => exact absurd hkk hk
  | Root => simp [inlineWalk, hg, hkk]
  | Container c child => simp [inlineWalk, hg, hkk]
  | Atom a => simp [inlineWalk, hg, hkk]

theorem inlineWalk_eq_cons {C A : Type} (ns : List (Node C A)) (h : NodeIndex)
    (n : Node C A) (fuel : Nat) (l : List Span) (hg : ns[h.index]? = some n)
    (hk : n.kind = .Inline) (hw : inlineWalk ns n.next fuel = some (.ok l)) :
    inlineWalk ns (some h) (fuel + 1) = some (.ok (n.span :: l)) := by
  simp [inlineWalk, hg, hk, hw]

theorem inlineWalk_eq_prop_err {C A : Type} (ns : List (Node C A)) (h : NodeIndex)
    (n : Node C A) (fuel : Nat) (e : Unit) (hg : ns[h.index]? = some n)
    (hk : n.kind = .Inline) (hw : inlineWalk ns n.next fuel = some (.error e)) :
    inlineWalk ns (some h) (fuel + 1) = some (.error e) := by
  simp [inlineWalk, hg, hk, hw]

theorem inlineWalk_eq_prop_none {C A : Type} (ns : List (Node C A)) (h : NodeIndex)
    (n : Node C A) (fuel : Nat) (hg : ns[h.index]? = some n)
    (hk : n.kind = .Inline) (hw : inlineWalk ns n.next fuel = none) :
    inlineWalk ns (some h) (fuel + 1) = none := by
  simp [inlineWalk, hg, hk, hw]

end tree

namespace tree

theorem inlineWalk_complete {C A : Type} (ns : List (Node C A)) :
    ∀ (hd : Option NodeIndex) (spl : List Span), InlineChain ns hd spl →
      ∃ fuel, inlineWalk ns hd fuel = some (.ok spl) := by
  intro hd spl hc
  induction hc with
  | nil => exact ⟨1, rfl⟩
  | cons h n l hg hk hrest ih =>
    obtain ⟨fuel, hf⟩ := ih
    exact ⟨fuel + 1, inlineWalk_eq_cons ns h n fuel l hg hk hf⟩

theorem inlineWalk_sound {C A : Type} (ns : List (Node C A)) :
    ∀ (fuel : Nat) (hd : Option NodeIndex) (spl : List Span),
      inlineWalk ns hd fuel = some (.ok spl) → InlineChain ns hd spl := by
  intro fuel
  induction fuel with
  | zero =>
    intro hd spl h
    rw [inlineWalk_eq_fuelout] at h
    cases h
  | succ fuel ih =>
    intro hd spl h
    cases hd with
    | none =>
      rw [inlineWalk_eq_nil] at h
      injection h with h3
      injection h3 with h4
      rw [← h4]
      exact InlineChain.nil
    | some hh =>
      cases hg : ns[hh.index]? with
      | none =>
        rw [inlineWalk_eq_oob ns hh fuel hg] at h
        injection h with h3
        cases h3
      | some n =>
        by_cases hk : n.kind = NodeKind.Inline
        · cases hw : inlineWalk ns n.next fuel with
          | none =>
            rw [inlineWalk_eq_prop_none ns hh n fuel hg hk hw] at h
            cases h
          | some r =>
            cases r with
            | error e =>
              rw [inlineWalk_eq_prop_err ns hh n fuel e hg hk hw] at h
              injection h with h3
              cases h3
            | ok l =>
              rw [inlineWalk_eq_cons ns hh n fuel l hg hk hw] at h
              injection h with h3
              injection h3 with h4
              rw [← h4]
              exact InlineChain.cons hh n l hg hk (ih n.next l hw)
        · rw [inlineWalk_eq_bad ns hh n fuel hg hk] at h
          injection h with h3
          cases h3

/-- C9: `take_inlines` clears the cursor head and walks the sibling chain from
the old head: if that chain is a run of consecutive `Inline` leaf nodes it
yields exactly their spans in order (and only such runs are ever yielded —
consumption succeeds precisely on `Inline` chains), while hitting any upcoming
node that is not an `Inline` node is a contract violation that aborts fatally
(the walk returns the panic, not a recoverable value), for any amount of
fuel. -/
theorem take_inlines_contract {C A : Type} (t : Tree C A) :
    ((take_inlines t).1 = { t with head := none }) ∧
    (∀ spl, InlineChain t.nodes (take_inlines t).2 spl →
      ∃ fuel, inlineWalk t.nodes (take_inlines t).2 fuel = some (.ok spl)) ∧
    (∀ fuel spl, inlineWalk t.nodes (take_inlines t).2 fuel = some (.ok spl) →
      InlineChain t.nodes (take_inlines t).2 spl) ∧
    (∀ h n fuel, (take_inlines t).2 = some h → t.nodes[h.index]? = some n →
      n.kind ≠ .Inline →
      inlineWalk t.nodes (take_inlines t).2 (fuel + 1) = some (.error ())) := by
  refine ⟨rfl, ?_, ?_, ?_⟩
  · intro spl hc
    exact inlineWalk_complete t.nodes _ spl hc
  · intro fuel spl h
    exact inlineWalk_sound t.nodes fuel _ spl h
  · intro h n fuel hhd hg hk
    rw [hhd]
    exact inlineWalk_eq_bad t.nodes h n fuel hg hk

end tree

namespace tree

/-- `struct Builder` (src/tree.rs).  The branch `Vec` is again modelled with
its stack top at the head of the list. -/
structure Builder (C A : Type) where
  nodes : List (Node C A)
  branch : List NodeIndex
  head : Option NodeIndex
  depth : Nat

/-- `Builder::new` (src/tree.rs): one `Root` node (span `Span::default()`,
the zero span), head at the root, empty branch, depth 0. -/
def Builder.new {C A : Type} : Builder C A :=
  ⟨[⟨⟨0, 0⟩, .Root, none⟩], [], some NodeIndex.root, 0⟩

/-- `Builder::add_node` (src/tree.rs): push the node, then link it in — as the
`next` of an atom/inline/root head (whose `next` must still be unset), or as
the `child` of a container head, pushing that container on the branch stack
(its `child` must still be unset), or, with no head, as the `next` of the
popped branch container.  The `error` collects the source's `assert_eq!`s, the
`assert!` on the popped node, the `panic!()` on no-head-and-empty-branch, and
the indexing panics. -/
def Builder.add_node {C A : Type} (b : Builder C A) (node : Node C A) :
    Except Unit (Builder C A) :=
  let ni := NodeIndex.new b.nodes.length
  let nodes := b.nodes ++ [node]
  match b.head with
  | some head_ni =>
    match nodes[head_ni.index]? with
    | none => .error ()
    | some head =>
      match head.kind with
      | .Root | .Inline | .Atom _ =>
        match head.next with
        | some _ => .error ()
        | none =>
          .ok { b with nodes := nodes.set head_ni.index { head with next := some ni },
                       head := some ni }
      | .Container c child =>
        match child with
        | some _ => .error ()
        | none =>
          .ok { nodes := nodes.set head_ni.index { head with kind := .Container c (some ni) },
                branch := head_ni :: b.branch,
                head := some ni,
                depth := b.depth }
  | none =>
    match b.branch with
    | block :: rest =>
      match nodes[block.index]? with
      | none => .error ()
      | some bn =>
        match bn.kind with
        | .Container _ _ =>
          .ok { b with nodes := nodes.set block.index { bn with next := some ni },
                       branch := rest, head := some ni }
        | _ => .error ()
    | [] => .error ()

/-- `Builder::atom` (src/tree.rs). -/
def Builder.atom {C A : Type} (b : Builder C A) (a : A) (sp : Span) :
    Except Unit (Builder C A) :=
  b.add_node ⟨sp, .Atom a, none⟩

/-- `Builder::inline` (src/tree.rs). -/
def Builder.inline {C A : Type} (b : Builder C A) (sp : Span) :
    Except Unit (Builder C A) :=
  b.add_node ⟨sp, .Inline, none⟩

/-- `Builder::enter` (src/tree.rs): bump the depth, then add a container node
with no child yet. -/
def Builder.enter {C A : Type} (b : Builder C A) (c : C) (sp : Span) :
    Except Unit (Builder C A) :=
  Builder.add_node { b with depth := b.depth + 1 } ⟨sp, .Container c none, none⟩

/-- `Builder::exit` (src/tree.rs): decrement the depth (`usize` underflow on a
surplus exit is the panic, modelled as the depth-0 `error`); clear the head if
set, otherwise pop the branch stack (`assert_ne!` fires on an empty branch). -/
def Builder.exit {C A : Type} (b : Builder C A) : Except Unit (Builder C A) :=
  match b.depth with
  | 0 => .error ()
  | d + 1 =>
    match b.head with
    | some _ => .ok { b with depth := d, head := none }
    | none =>
      match b.branch with
      | [] => .error ()
      | _ :: rest => .ok { b with depth := d, branch := rest }

/-- `Builder::finish` (src/tree.rs): `assert_eq!(depth, 0)`, then the tree
starts at the root node's `next`. -/
def Builder.finish {C A : Type} (b : Builder C A) : Except Unit (Tree C A) :=
  if b.depth ≠ 0 then .error ()
  else
    match b.nodes[NodeIndex.root.index]? with
    | none => .error ()
    | some rootNode => .ok ⟨b.nodes, [], rootNode.next⟩

/-- One call of the `Builder` API. -/
inductive Call (C A : Type) where
  | enter (c : C) (sp : Span)
  | exit
  | atom (a : A) (sp : Span)
  | inline (sp : Span)

/-- Run a sequence of `Builder` calls from `Builder::new`, propagating any
panic. -/
def runCalls {C A : Type} (l : List (Call C A)) : Except Unit (Builder C A) :=
  l.foldlM (fun b call =>
    match call with
    | .enter c sp => b.enter c sp
    | .exit => b.exit
    | .atom a sp => b.atom a sp
    | .inline sp => b.inline sp) Builder.new

/-- A call sequence is balanced at nesting depth `d`: every `exit` matches an
earlier unmatched `enter` and every `enter` is closed by the end. -/
def balancedCalls {C A : Type} : List (Call C A) → Nat → Bool
  | [], d => decide (d = 0)
  | .enter _ _ :: l, d => balancedCalls l (d + 1)
  | .exit :: l, d => decide (0 < d) && balancedCalls l (d - 1)
  | .atom _ _ :: l, d => balancedCalls l d
  | .inline _ :: l, d => balancedCalls l d

/-- C2 (code bug): the balanced builder-call sequence `enter, exit, atom` — a
closed container followed by a top-level atom — drives `add_node` into its
`panic!()` branch (no head and an empty branch stack): the builder aborts
instead of producing a tree whose cursor replays the corresponding
`Enter/Exit/Atom` events, refuting the round-trip claim for balanced call
sequences. -/
theorem builder_balanced_panic :
    balancedCalls ([Call.enter 1 ⟨0, 1⟩, Call.exit, Call.atom 2 ⟨1, 2⟩] :
        List (Call Nat Nat)) 0 = true ∧
    runCalls ([Call.enter 1 ⟨0, 1⟩, Call.exit, Call.atom 2 ⟨1, 2⟩] :
        List (Call Nat Nat)) = .error () := by
  exact ⟨rfl, rfl⟩

end tree
